import Mathlib

/-!
# Verification of the CLTE evaluation harness

A shallow embedding of the core of the CLTE repository (an evaluation
harness for Chinese-language comprehension tasks) together with theorems
settling a list of specification claims about it.

The embedding covers, faithfully translated from the Python source:

* `src/utils/metrics.py`: `extract_last_boxed_answer`,
  `extract_last_knowledge_object`, `extract_knowledge_from_text`,
  `calculate_accuracy`;
* `src/tasks/task1_evaluator.py`: `calculate_field_accuracy` and the
  resumable evaluation loop of `run_evaluation_task1`;
* `src/tasks/task3_evaluator.py`: `generate_knowledge_for_task3`,
  `run_evaluation_student`, `run_evaluation_task3`.

Conventions of the embedding:

* Python strings are modelled as `List Char`; top-level entry points also
  accept `String` and work on `.data`.
* The Python regular expressions in `metrics.py` are hand-compiled into
  deterministic scanning functions that reproduce the backtracking
  behaviour of CPython's `re` engine on those exact patterns (leftmost
  match, alternatives in order, greedy/lazy quantifiers).  The character
  class `\s` is modelled as the six ASCII whitespace characters, and `.`
  as any character other than a newline, matching `re` semantics on the
  ASCII inputs the harness deals with.
* Recursions whose measure is not structural take an explicit fuel
  argument so that every definition reduces in the kernel; the public
  wrappers instantiate the fuel with a bound that is provably sufficient
  (each recursive call strictly decreases the input length, and the fuel
  starts at least at the input length plus one).
* `json.loads` is modelled by an executable recursive-descent parser of
  the JSON grammar accepted by Python's `json` module (including the
  `NaN`/`Infinity` constants).  Numeric values are represented exactly as
  rationals rather than IEEE doubles, and `\u` escapes are interpreted as
  scalar values with surrogate pairs combined; neither simplification
  affects which inputs parse successfully at the granularity used here.
* The model backend (`model.chat`) is an external collaborator; it is
  abstracted as an oracle mapping the flat sample index to a response
  string.  For a fixed dataset the prompt of a (sample, iteration) pair
  is a function of the flat index, so this loses no generality.
* Exceptions (`ValueError` from `calculate_accuracy`) are modelled with
  `Except`.
-/

/-! ## Basic character and string utilities (Python semantics) -/

/-- The regex class `\s` restricted to ASCII: space, tab, newline,
carriage return, vertical tab, form feed.  `str.strip()` uses the same
set on ASCII text. -/
def isWSChar (c : Char) : Bool :=
  c = ' ' || c = '\t' || c = '\n' || c = '\r' || c = '\x0b' || c = '\x0c'

/-- `[A-D]`. -/
def isAD (c : Char) : Bool :=
  c = 'A' || c = 'B' || c = 'C' || c = 'D'

/-- Greedy `\s*`: drop leading whitespace. -/
def dropWS (cs : List Char) : List Char := cs.dropWhile isWSChar

/-- The whitespace consumed by a leading `\s*`. -/
def takeWS (cs : List Char) : List Char := cs.takeWhile isWSChar

/-- Python `str.strip()`: remove leading and trailing whitespace. -/
def pyStrip (cs : List Char) : List Char :=
  ((cs.dropWhile isWSChar).reverse.dropWhile isWSChar).reverse

/-- Python `str.lstrip(set)`: remove leading characters belonging to a set. -/
def pyLStripSet (set : List Char) (cs : List Char) : List Char :=
  cs.dropWhile (fun c => set.contains c)

/-- Python `str.rstrip(set)`: remove trailing characters belonging to a set. -/
def pyRStripSet (set : List Char) (cs : List Char) : List Char :=
  ((cs.reverse).dropWhile (fun c => set.contains c)).reverse

/-- Python `str.upper()` on ASCII text (per-character upcasing). -/
def pyUpper (cs : List Char) : List Char := cs.map Char.toUpper

/-- Python `pat in s` (substring test). -/
def hasSubst (pat : List Char) : List Char → Bool
  | [] => pat.isPrefixOf ([] : List Char)
  | c :: cs => pat.isPrefixOf (c :: cs) || hasSubst pat cs

/-- First occurrence of `pat` as a substring: returns the part before the
occurrence and the part after it. -/
def splitOnSub (pat : List Char) : List Char → Option (List Char × List Char)
  | [] => if pat.isPrefixOf ([] : List Char) then some ([], []) else none
  | c :: cs =>
    if pat.isPrefixOf (c :: cs) then some ([], (c :: cs).drop pat.length)
    else (splitOnSub pat cs).map (fun p => (c :: p.1, p.2))

/-- Fuelled worker for `afterLastSub`. -/
def afterLastSubF (pat : List Char) : Nat → List Char → List Char
  | 0, cs => cs
  | fuel + 1, cs =>
    match splitOnSub pat cs with
    | none => cs
    | some (_, post) => afterLastSubF pat fuel post

/-- The part of `cs` after the last occurrence of `pat`
(Python `s.split(pat)[-1]` for a non-self-overlapping, nonempty `pat`;
when `pat` does not occur the whole string is returned). -/
def afterLastSub (pat : List Char) (cs : List Char) : List Char :=
  afterLastSubF pat (cs.length + 1) cs

/-! ## `calculate_accuracy` (src/utils/metrics.py, lines 137-160) -/

/-- `calculate_accuracy(predictions, answers)`: raises `ValueError` on a
length mismatch, otherwise counts predictions that are present and
case-insensitively equal to the answer, and divides by the length
(`0.0` for empty input). -/
def calculate_accuracy (predictions : List (Option (List Char)))
    (answers : List (List Char)) : Except String ℚ :=
  if predictions.length ≠ answers.length then
    .error "Number of predictions and answers must be equal"
  else
    let correct := ((predictions.zip answers).filter
      (fun pa => match pa.1 with
        | some p => pyUpper p = pyUpper pa.2
        | none => false)).length
    .ok (if 0 < predictions.length then (correct : ℚ) / predictions.length else 0)

/-! ## `extract_last_boxed_answer` (src/utils/metrics.py, lines 79-134)

The Python function runs
`re.findall(r'\\boxed\{(\s*\\text\{([^}]*)\}|\s*\{?([A-D][\.\s].*?\}?)\}?|\s*([A-D])\s*)\}', text)`
and post-processes the matches.  The pattern is hand-compiled below.  At a
position where the literal `\boxed{` matches, the three alternatives are
tried in order; each one is deterministic once the backtracking of the
`re` engine is unfolded:

* alternative 1 `\s*\\text\{([^}]*)\}` followed by the closing `\}`:
  maximal whitespace, the literal `\text{`, then `[^}]*` runs exactly to
  the first `}` and two closing braces must follow;
* alternative 2 `\s*\{?([A-D][\.\s].*?\}?)\}?` followed by `\}`: maximal
  whitespace, an optional `{`, a letter, a dot-or-whitespace, then the
  lazy `.*?` scans (without crossing a newline) to the first `}`; the two
  optional braces and the mandatory one consume up to three consecutive
  `}` characters, and the group keeps one of them when at least two are
  present;
* alternative 3 `\s*([A-D])\s*` followed by `\}`.
-/

/-- The literal `\boxed{`. -/
def boxedLit : List Char := ['\\', 'b', 'o', 'x', 'e', 'd', '{']

/-- The literal `\text{`. -/
def textLit : List Char := ['\\', 't', 'e', 'x', 't', '{']

/-- Captured groups 2-4 of one match of the boxed pattern; a group that
did not participate is the empty string, as in `re.findall`. -/
structure BGroups where
  g2 : List Char
  g3 : List Char
  g4 : List Char
  deriving DecidableEq, Repr

/-- The lazy scan `.*?` up to a `}`: fails on end of input or on a
newline, otherwise returns the skipped characters and the rest starting
at the first `}`. -/
def scanDotEnd : List Char → Option (List Char × List Char)
  | [] => none
  | c :: cs =>
    if c = '}' then some ([], c :: cs)
    else if c = '\n' then none
    else (scanDotEnd cs).map (fun p => (c :: p.1, p.2))

/-- Alternative 1 of the boxed pattern (the `\text{...}` shape). -/
def tryTextBranch (cs : List Char) : Option (BGroups × List Char) :=
  let cs1 := dropWS cs
  if textLit.isPrefixOf cs1 then
    let cs2 := cs1.drop 6
    let content := cs2.takeWhile (fun c => c ≠ '}')
    match cs2.dropWhile (fun c => c ≠ '}') with
    | '}' :: '}' :: r => some (⟨content, [], []⟩, r)
    | _ => none
  else none

/-- The closing step of alternative 2: the group-internal `\}?`, the
outer `\}?` and the mandatory `\}`, applied after the first `}` found by
the lazy scan (which `after` follows).  Backtracking consumes up to two
further consecutive `}` characters; the group keeps one `}` exactly when
at least one further `}` follows.  Returns the group tail and the rest of
the text after the whole match. -/
def braceClose (mid : List Char) (after : List Char) : List Char × List Char :=
  match after with
  | '}' :: '}' :: r2 => (mid ++ ['}'], r2)
  | '}' :: r2 => (mid ++ ['}'], r2)
  | r2 => (mid, r2)

/-- Alternative 2 of the boxed pattern (the `A.xxx` shape). -/
def tryDottedBranch (cs : List Char) : Option (BGroups × List Char) :=
  let cs1 := dropWS cs
  let cs2 := match cs1 with
    | '{' :: r => r
    | _ => cs1
  match cs2 with
  | c :: d :: rest =>
    if isAD c && (d = '.' || isWSChar d) then
      match scanDotEnd rest with
      | some (mid, _ :: after) =>
        let gr := braceClose mid after
        some (⟨[], c :: d :: gr.1, []⟩, gr.2)
      | _ => none
    else none
  | _ => none

/-- Alternative 3 of the boxed pattern (a bare letter). -/
def tryBareBranch (cs : List Char) : Option (BGroups × List Char) :=
  match dropWS cs with
  | c :: rest =>
    if isAD c then
      match dropWS rest with
      | '}' :: r => some (⟨[], [], [c]⟩, r)
      | _ => none
    else none
  | [] => none

/-- One attempted match of the boxed pattern at a position right after
the literal `\boxed{`: the three alternatives in order. -/
def matchBoxedAt (cs : List Char) : Option (BGroups × List Char) :=
  match tryTextBranch cs with
  | some r => some r
  | none =>
    match tryDottedBranch cs with
    | some r => some r
    | none => tryBareBranch cs

/-- Fuelled worker for `boxedFindAll`. -/
def boxedFindAllF : Nat → List Char → List BGroups
  | 0, _ => []
  | fuel + 1, cs =>
    match cs with
    | [] => []
    | c :: cs' =>
      if boxedLit.isPrefixOf (c :: cs') then
        match matchBoxedAt ((c :: cs').drop 7) with
        | some (g, rest) => g :: boxedFindAllF fuel rest
        | none => boxedFindAllF fuel cs'
      else boxedFindAllF fuel cs'

/-- `re.findall` for the boxed pattern: scan left to right, at each
position where `\boxed{` matches try the pattern, and continue after the
end of a successful match. -/
def boxedFindAll (cs : List Char) : List BGroups := boxedFindAllF cs.length cs

/-- The per-match content selection of `extract_last_boxed_answer`:
`match[1]` if truthy, else `match[2]`, else `match[3]`, else skip
(Python truthiness of a string is nonemptiness). -/
def selectContent (g : BGroups) : Option (List Char) :=
  if g.g2 ≠ [] then some g.g2
  else if g.g3 ≠ [] then some g.g3
  else if g.g4 ≠ [] then some g.g4
  else none

/-- `extracted_options`: selected contents, stripped, empty ones
dropped. -/
def extractedOptions (gs : List BGroups) : List (List Char) :=
  gs.filterMap (fun g =>
    (selectContent g).bind (fun c =>
      let c' := pyStrip c
      if c' = [] then none else some c'))

/-- The final classification of the last boxed content:
`re.fullmatch(r'[A-D]', last)` then `re.match(r'^([A-D])[\.\s].*', last)`;
the result is the one-letter string of the option, or `None`. -/
def labelOf (last : List Char) : Option (List Char) :=
  match last with
  | [c] => if isAD c then some [c] else none
  | c :: d :: _ => if isAD c && (d = '.' || isWSChar d) then some [c] else none
  | [] => none

/-- `extract_last_boxed_answer(text)` on a character list: find all boxed
matches, keep the nonempty stripped contents, and classify the last one.
Returns the extracted option letter (a one-letter string), or `none`. -/
def extractBoxedCore (cs : List Char) : Option (List Char) :=
  match (extractedOptions (boxedFindAll cs)).getLast? with
  | none => none
  | some last => labelOf last

/-- `extract_last_boxed_answer` (src/utils/metrics.py, lines 79-134). -/
def extract_last_boxed_answer (s : String) : Option String :=
  (extractBoxedCore s.data).map (fun l => ⟨l⟩)

/-! ## The knowledge extractor (src/utils/metrics.py, lines 5-76)

`extract_last_knowledge_object` tries three patterns in order, each time
keeping the last match found anywhere in the text:

* pattern 1 ``` ```json\s*({.*?"knowledge":.*?})\s*``` ``` with `DOTALL`
  (one capturing group);
* pattern 2 `{\s*"knowledge":.*?}` with `DOTALL` (whole match);
* pattern 3 `{"knowledge":.*?}(?=(?:[^"]*"[^"]*")*[^"]*$)` without
  `DOTALL` (whole match).  Since `[^"]` crosses newlines and `$` accepts
  an optional final newline that cannot be a quote, the lookahead is
  equivalent to: the number of `"` characters in the remaining text is
  even.

The selected candidate is decoded by `extract_knowledge_from_text`.
-/

/-- The literal `"knowledge":`. -/
def kLit : List Char := ['"', 'k', 'n', 'o', 'w', 'l', 'e', 'd', 'g', 'e', '"', ':']

/-- The dictionary key `knowledge`. -/
def kKey : List Char := ['k', 'n', 'o', 'w', 'l', 'e', 'd', 'g', 'e']

/-- The literal ```` ```json ````. -/
def jsonFenceLit : List Char := ['`', '`', '`', 'j', 's', 'o', 'n']

/-- The literal ```` ``` ````. -/
def fenceLit : List Char := ['`', '`', '`']

/-- Pattern 1, after `"knowledge":` was located: the lazy `.*?` scans
(crossing newlines, `DOTALL`) for a `}` followed by `\s*` and the closing
fence; on a `}` not followed by a fence the scan continues.  Returns the
scanned characters before the successful `}` and the rest after the
closing fence. -/
def p1Close : List Char → Option (List Char × List Char)
  | [] => none
  | c :: cs =>
    if c = '}' && fenceLit.isPrefixOf (dropWS cs) then some ([], (dropWS cs).drop 3)
    else (p1Close cs).map (fun p => (c :: p.1, p.2))

/-- Pattern 1, after the opening `{`: the first lazy `.*?` tries each
occurrence of `"knowledge":` from left to right, and for each one the
second lazy scan (`p1Close`) looks for the closing `}` and fence;
on failure the next occurrence is tried.  Returns the group-1 tail
(everything of the group after its opening `{`) and the rest after the
closing fence. -/
def p1InnerF : Nat → List Char → Option (List Char × List Char)
  | 0, _ => none
  | fuel + 1, cs =>
    match splitOnSub kLit cs with
    | none => none
    | some (pre, post) =>
      match p1Close post with
      | some (mid, rest) => some (pre ++ kLit ++ mid ++ ['}'], rest)
      | none => (p1InnerF fuel post).map (fun p => (pre ++ kLit ++ p.1, p.2))

/-- One attempted match of pattern 1 at a position right after the
literal ```` ```json ````: greedy `\s*`, the group `({.*?"knowledge":.*?})`,
`\s*` and the closing fence.  Returns the captured group and the rest. -/
def p1At (cs : List Char) : Option (List Char × List Char) :=
  match dropWS cs with
  | '{' :: r => (p1InnerF (r.length + 1) r).map (fun p => ('{' :: p.1, p.2))
  | _ => none

/-- Fuelled worker for `p1Scan`. -/
def p1ScanF : Nat → List Char → List (List Char)
  | 0, _ => []
  | _ + 1, [] => []
  | fuel + 1, c :: cs =>
    if jsonFenceLit.isPrefixOf (c :: cs) then
      match p1At ((c :: cs).drop 7) with
      | some (g, rest) => g :: p1ScanF fuel rest
      | none => p1ScanF fuel cs
    else p1ScanF fuel cs

/-- `re.findall` for pattern 1 (returns the captured groups). -/
def p1Scan (cs : List Char) : List (List Char) := p1ScanF cs.length cs

/-- One attempted match of pattern 2 at a position: the literal `{`,
greedy `\s*`, the literal `"knowledge":`, then the lazy `.*?` (crossing
newlines) up to the first `}`.  Returns the whole match and the rest. -/
def p2At (cs : List Char) : Option (List Char × List Char) :=
  match cs with
  | c :: r =>
    if c = '{' then
      if kLit.isPrefixOf (dropWS r) then
        let r2 := (dropWS r).drop 12
        let mid := r2.takeWhile (fun c => c ≠ '}')
        match r2.dropWhile (fun c => c ≠ '}') with
        | '}' :: rest => some ('{' :: (takeWS r ++ kLit ++ mid ++ ['}']), rest)
        | _ => none
      else none
    else none
  | [] => none

/-- Fuelled worker for `p2Scan`. -/
def p2ScanF : Nat → List Char → List (List Char)
  | 0, _ => []
  | _ + 1, [] => []
  | fuel + 1, c :: cs =>
    match p2At (c :: cs) with
    | some (g, rest) => g :: p2ScanF fuel rest
    | none => p2ScanF fuel cs

/-- `re.findall` for pattern 2 (returns the whole matches). -/
def p2Scan (cs : List Char) : List (List Char) := p2ScanF cs.length cs

/-- The lookahead of pattern 3: the remaining text contains an even
number of `"` characters. -/
def evenQuotes (cs : List Char) : Bool := (cs.count '"') % 2 = 0

/-- Pattern 3, after the literal `{"knowledge":`: the lazy `.*?` (not
crossing newlines) scans for a `}` whose remaining text satisfies the
lookahead; a `}` failing the lookahead is scanned over, a newline aborts
the match. -/
def p3Close : List Char → Option (List Char × List Char)
  | [] => none
  | c :: cs =>
    if c = '}' && evenQuotes cs then some ([], cs)
    else if c = '\n' then none
    else (p3Close cs).map (fun p => (c :: p.1, p.2))

/-- One attempted match of pattern 3 at a position. -/
def p3At (cs : List Char) : Option (List Char × List Char) :=
  if (('{' :: kLit) : List Char).isPrefixOf cs then
    (p3Close (cs.drop 13)).map (fun p => ('{' :: kLit ++ p.1 ++ ['}'], p.2))
  else none

/-- Fuelled worker for `p3Scan`. -/
def p3ScanF : Nat → List Char → List (List Char)
  | 0, _ => []
  | _ + 1, [] => []
  | fuel + 1, c :: cs =>
    match p3At (c :: cs) with
    | some (g, rest) => g :: p3ScanF fuel rest
    | none => p3ScanF fuel cs

/-- `re.findall` for pattern 3 (returns the whole matches). -/
def p3Scan (cs : List Char) : List (List Char) := p3ScanF cs.length cs

/-! ## A model of `json.loads` -/

/-- Values produced by `json.loads`: `None`, booleans, numbers (modelled
exactly as rationals), the `NaN` and `Infinity` constants, strings,
lists, and dicts (kept as the parsed member list; lookup takes the last
binding, like a Python dict built by repeated insertion). -/
inductive PyJson where
  | null
  | bool (b : Bool)
  | num (q : ℚ)
  | nan
  | inf (neg : Bool)
  | str (s : List Char)
  | arr (elems : List PyJson)
  | obj (members : List (List Char × PyJson))

/-- JSON whitespace (the four characters accepted between JSON tokens). -/
def jWS (c : Char) : Bool := c = ' ' || c = '\t' || c = '\n' || c = '\r'

/-- Skip JSON whitespace. -/
def skipJWS (cs : List Char) : List Char := cs.dropWhile jWS

/-- A hexadecimal digit's value. -/
def hexDigitVal (c : Char) : Option Nat :=
  if '0' ≤ c && c ≤ '9' then some (c.toNat - 48)
  else if 'a' ≤ c && c ≤ 'f' then some (c.toNat - 87)
  else if 'A' ≤ c && c ≤ 'F' then some (c.toNat - 55)
  else none

/-- Four hexadecimal digits. -/
def hex4 : List Char → Option (Nat × List Char)
  | a :: b :: c :: d :: r =>
    match hexDigitVal a, hexDigitVal b, hexDigitVal c, hexDigitVal d with
    | some va, some vb, some vc, some vd => some (((va * 16 + vb) * 16 + vc) * 16 + vd, r)
    | _, _, _, _ => none
  | _ => none

/-- The value of a simple escape character, if legal. -/
def escVal (c : Char) : Option Char :=
  if c = '"' then some '"'
  else if c = '\\' then some '\\'
  else if c = '/' then some '/'
  else if c = 'b' then some '\x08'
  else if c = 'f' then some '\x0c'
  else if c = 'n' then some '\n'
  else if c = 'r' then some '\r'
  else if c = 't' then some '\t'
  else none

/-- Is `n` a decimal digit character code? -/
def isDigitChar (c : Char) : Bool := '0' ≤ c && c ≤ '9'

/-- Numeric value of a digit string. -/
def digitsVal (ds : List Char) : Nat :=
  ds.foldl (fun acc c => acc * 10 + (c.toNat - 48)) 0

/-- Parse a JSON number at the current position, following
`(-?(?:0|[1-9]\d*))(\.\d+)?([eE][-+]?\d+)?`: the integer part is
mandatory, fraction and exponent are consumed only when complete.  The
value is returned exactly as a rational. -/
def parseNum (cs : List Char) : Option (PyJson × List Char) :=
  let signRes : ℚ × List Char := match cs with
    | '-' :: r => (-1, r)
    | _ => (1, cs)
  let sign := signRes.1
  let cs1 := signRes.2
  let intRes : Option (Nat × List Char) := match cs1 with
    | '0' :: r => some (0, r)
    | c :: r =>
      if isDigitChar c && c ≠ '0' then
        some (digitsVal (c :: r.takeWhile isDigitChar), r.dropWhile isDigitChar)
      else none
    | [] => none
  match intRes with
  | none => none
  | some (ip, cs2) =>
    let fracRes : ℚ × List Char := match cs2 with
      | '.' :: r =>
        let fs := r.takeWhile isDigitChar
        if fs = [] then (0, cs2)
        else ((digitsVal fs : ℚ) / ((10 : ℚ) ^ fs.length), r.dropWhile isDigitChar)
      | _ => (0, cs2)
    let frac := fracRes.1
    let cs3 := fracRes.2
    let expRes : ℤ × List Char := match cs3 with
      | e :: rest =>
        if e = 'e' || e = 'E' then
          let signedRes : Bool × List Char := match rest with
            | '+' :: r2 => (false, r2)
            | '-' :: r2 => (true, r2)
            | _ => (false, rest)
          let es := signedRes.2.takeWhile isDigitChar
          if es = [] then (0, cs3)
          else
            let ev : ℤ := digitsVal es
            (if signedRes.1 then -ev else ev, signedRes.2.dropWhile isDigitChar)
        else (0, cs3)
      | [] => (0, cs3)
    some (PyJson.num (sign * ((ip : ℚ) + frac) * (10 : ℚ) ^ expRes.1), expRes.2)

/-- Parse the body of a JSON string (the opening `"` already consumed):
simple escapes, `\uXXXX` escapes (surrogate pairs combined; a lone
surrogate, unrepresentable in `Char`, degrades to `'\0'`), literal
control characters rejected (`strict=True`). -/
def parseStr : Nat → List Char → Option (List Char × List Char)
  | 0, _ => none
  | fuel + 1, cs =>
    match cs with
    | [] => none
    | '"' :: r => some ([], r)
    | '\\' :: e :: r =>
      if e = 'u' then
        match hex4 r with
        | none => none
        | some (code, r2) =>
          if 0xD800 ≤ code && code ≤ 0xDBFF then
            match r2 with
            | '\\' :: 'u' :: r3 =>
              match hex4 r3 with
              | some (lo, r4) =>
                if 0xDC00 ≤ lo && lo ≤ 0xDFFF then
                  (parseStr fuel r4).map (fun p =>
                    (Char.ofNat (0x10000 + (code - 0xD800) * 0x400 + (lo - 0xDC00)) :: p.1, p.2))
                else (parseStr fuel r2).map (fun p => (Char.ofNat code :: p.1, p.2))
              | none => (parseStr fuel r2).map (fun p => (Char.ofNat code :: p.1, p.2))
            | _ => (parseStr fuel r2).map (fun p => (Char.ofNat code :: p.1, p.2))
          else (parseStr fuel r2).map (fun p => (Char.ofNat code :: p.1, p.2))
      else
        match escVal e with
        | some c => (parseStr fuel r).map (fun p => (c :: p.1, p.2))
        | none => none
    | c :: r =>
      if c.toNat < 0x20 then none
      else (parseStr fuel r).map (fun p => (c :: p.1, p.2))

mutual

/-- Parse one JSON value at the current position (whitespace already
skipped). -/
def parseVal : Nat → List Char → Option (PyJson × List Char)
  | 0, _ => none
  | fuel + 1, cs =>
    match cs with
    | '{' :: r => parseObjStart fuel (skipJWS r)
    | '[' :: r => parseArrStart fuel (skipJWS r)
    | '"' :: r => (parseStr fuel r).map (fun p => (PyJson.str p.1, p.2))
    | 't' :: 'r' :: 'u' :: 'e' :: r => some (.bool true, r)
    | 'f' :: 'a' :: 'l' :: 's' :: 'e' :: r => some (.bool false, r)
    | 'n' :: 'u' :: 'l' :: 'l' :: r => some (.null, r)
    | 'N' :: 'a' :: 'N' :: r => some (.nan, r)
    | 'I' :: 'n' :: 'f' :: 'i' :: 'n' :: 'i' :: 't' :: 'y' :: r => some (.inf false, r)
    | '-' :: 'I' :: 'n' :: 'f' :: 'i' :: 'n' :: 'i' :: 't' :: 'y' :: r => some (.inf true, r)
    | _ => parseNum cs

/-- Parse an object body right after `{` (whitespace skipped). -/
def parseObjStart : Nat → List Char → Option (PyJson × List Char)
  | 0, _ => none
  | fuel + 1, cs =>
    match cs with
    | '}' :: r => some (.obj [], r)
    | _ => parseMembers fuel cs []

/-- Parse one or more `"key": value` members separated by commas. -/
def parseMembers : Nat → List Char → List (List Char × PyJson) →
    Option (PyJson × List Char)
  | 0, _, _ => none
  | fuel + 1, cs, acc =>
    match cs with
    | '"' :: r =>
      match parseStr fuel r with
      | none => none
      | some (key, r1) =>
        match skipJWS r1 with
        | ':' :: r2 =>
          match parseVal fuel (skipJWS r2) with
          | none => none
          | some (v, r3) =>
            match skipJWS r3 with
            | ',' :: r4 => parseMembers fuel (skipJWS r4) (acc ++ [(key, v)])
            | '}' :: r4 => some (.obj (acc ++ [(key, v)]), r4)
            | _ => none
        | _ => none
    | _ => none

/-- Parse an array body right after `[` (whitespace skipped). -/
def parseArrStart : Nat → List Char → Option (PyJson × List Char)
  | 0, _ => none
  | fuel + 1, cs =>
    match cs with
    | ']' :: r => some (.arr [], r)
    | _ => parseElems fuel cs []

/-- Parse one or more array elements separated by commas. -/
def parseElems : Nat → List Char → List PyJson → Option (PyJson × List Char)
  | 0, _, _ => none
  | fuel + 1, cs, acc =>
    match parseVal fuel cs with
    | none => none
    | some (v, r) =>
      match skipJWS r with
      | ',' :: r2 => parseElems fuel (skipJWS r2) (acc ++ [v])
      | ']' :: r2 => some (.arr (acc ++ [v]), r2)
      | _ => none

end

/-- `json.loads`: parse a complete document; trailing whitespace is
allowed, any other trailing text is an error.  The fuel `3·length + 4`
suffices because every recursive call decreases it by one, a call chain
alternates through at most three calls per consumed character, and
sequential calls at the same level share the fuel of their caller. -/
def pyJsonParse (cs : List Char) : Option PyJson :=
  match parseVal (3 * cs.length + 4) (skipJWS cs) with
  | some (v, rest) => if skipJWS rest = [] then some v else none
  | none => none

/-- Dict lookup, last binding wins (a Python dict built by repeated
insertion keeps the last value for a duplicated key). -/
def dictGetLast (kvs : List (List Char × PyJson)) (key : List Char) : Option PyJson :=
  kvs.foldl (fun acc kv => if kv.1 = key then some kv.2 else acc) none

/-! ## `extract_knowledge_from_text` (src/utils/metrics.py, lines 5-39) -/

/-- The textual fallback of `extract_knowledge_from_text`: if
`"knowledge":` occurs, take everything after its last occurrence and
strip whitespace; then remove all leading `"` (Python `lstrip('"')`,
guarded by a `startswith` test) and all trailing `"` (`rstrip('"')`,
guarded by an `endswith` test). -/
def kFallback (ct : List Char) : List Char :=
  let knowledge := if hasSubst kLit ct then pyStrip (afterLastSub kLit ct) else []
  let knowledge := if knowledge.head? = some '"' then knowledge.dropWhile (fun c => c = '"')
    else knowledge
  let knowledge := if knowledge.getLast? = some '"' then
    (knowledge.reverse.dropWhile (fun c => c = '"')).reverse else knowledge
  knowledge

/-- The fence-cleaning step of `extract_knowledge_from_text`: strip a
leading ```` ```json ```` fence (Python `lstrip` removes characters of
the *set* of that literal) and a trailing fence. -/
def fenceClean (text : List Char) : List Char :=
  let ct := if jsonFenceLit.isPrefixOf text then pyLStripSet jsonFenceLit text else text
  if fenceLit.isSuffixOf ct then pyRStripSet fenceLit ct else ct

/-- `extract_knowledge_from_text(text)`: clean the fences, try
`json.loads`; on a dict return its `"knowledge"` entry (default `""`),
on any other parse outcome (a parse error, or a non-dict value whose
`.get` raises `AttributeError` inside the same `try`) return the textual
fallback. -/
def extract_knowledge_from_text (text : List Char) : PyJson :=
  let ct := fenceClean text
  match pyJsonParse ct with
  | some (PyJson.obj kvs) =>
    match dictGetLast kvs kKey with
    | some v => v
    | none => PyJson.str []
  | _ => PyJson.str (kFallback ct)

/-- `extract_last_knowledge_object(text)`: pattern 1, then pattern 2,
then pattern 3, each on its last match; empty string when none match. -/
def extractKnowledgeCore (text : List Char) : PyJson :=
  match (p1Scan text).getLast? with
  | some m => extract_knowledge_from_text (jsonFenceLit ++ '\n' :: (m ++ '\n' :: fenceLit))
  | none =>
    match (p2Scan text).getLast? with
    | some m => extract_knowledge_from_text m
    | none =>
      match (p3Scan text).getLast? with
      | some m => extract_knowledge_from_text m
      | none => PyJson.str []

/-- `extract_last_knowledge_object` (src/utils/metrics.py, lines 42-76). -/
def extract_last_knowledge_object (s : String) : PyJson :=
  extractKnowledgeCore s.data

/-! ## `calculate_field_accuracy` (src/tasks/task1_evaluator.py, lines 13-62)

The Python function stores everything in one dict per field:
`field_data[field]` holds the list-valued keys `"answers"` and
`"predictions"`, the dict-valued key `"sub_field"`, and — because of the
assignment `field_data[field][sub_field] = ...` — further buckets under
the sub-field names themselves.  The model splits the fixed keys from the
sub-field-named keys (`subEntries`); this is faithful whenever no
sub-field is literally named `answers`, `predictions` or `sub_field`,
which would make the Python dict collide with its own fixed keys.  Note
the membership test is made against `field_data[field]["sub_field"]`
(which is never written), while the assignment goes to
`field_data[field][sub_field]`; the model reproduces this exactly. -/

/-- One result record as consumed by `calculate_field_accuracy`. -/
structure Task1Item where
  answer : List Char
  prediction : Option (List Char)
  field : List Char
  sub_field : List Char

/-- A `{"answers": [...], "predictions": [...]}` bucket. -/
structure SubBucket where
  answers : List (List Char)
  predictions : List (Option (List Char))

/-- The dict `field_data[field]`. -/
structure FieldBucket where
  answers : List (List Char)
  predictions : List (Option (List Char))
  sub_field : List (List Char × SubBucket)
  subEntries : List (List Char × SubBucket)

/-- Ordered-dict lookup. -/
def alistGet (l : List (List Char × α)) (k : List Char) : Option α :=
  match l with
  | [] => none
  | kv :: rest => if kv.1 = k then some kv.2 else alistGet rest k

/-- Ordered-dict assignment: replace in place, else append (Python dict
insertion-order semantics). -/
def alistSet (l : List (List Char × α)) (k : List Char) (v : α) : List (List Char × α) :=
  match l with
  | [] => [(k, v)]
  | kv :: rest => if kv.1 = k then (k, v) :: rest else kv :: alistSet rest k v

/-- The per-record update of `field_data` in `calculate_field_accuracy`
(the overall lists are accumulated separately). -/
def fieldDataStep (fd : List (List Char × FieldBucket)) (item : Task1Item) :
    List (List Char × FieldBucket) :=
  let fd := if (alistGet fd item.field).isNone then
      fd ++ [(item.field, ⟨[], [], [], []⟩)] else fd
  let fb := (alistGet fd item.field).getD ⟨[], [], [], []⟩
  let fb := if (alistGet fb.sub_field item.sub_field).isNone then
      { fb with subEntries := alistSet fb.subEntries item.sub_field ⟨[], []⟩ }
    else fb
  let sb := (alistGet fb.subEntries item.sub_field).getD ⟨[], []⟩
  let sb : SubBucket := ⟨sb.answers ++ [item.answer], sb.predictions ++ [item.prediction]⟩
  let fb := { fb with
    subEntries := alistSet fb.subEntries item.sub_field sb,
    answers := fb.answers ++ [item.answer],
    predictions := fb.predictions ++ [item.prediction] }
  alistSet fd item.field fb

/-- The value of `accuracy_scores[field_name]`. -/
structure FieldScore where
  overall : ℚ
  subs : List (List Char × ℚ)

/-- The value returned by `calculate_field_accuracy`. -/
structure FieldScores where
  fields : List (List Char × FieldScore)
  overall : ℚ

/-- The per-field body of the scoring loop of `calculate_field_accuracy`:
the field's own accuracy, then one accuracy per entry of the field's
`"sub_field"` dict. -/
def fieldScoreOf (kv : List Char × FieldBucket) :
    Except String (List Char × FieldScore) := do
  let facc ← calculate_accuracy kv.2.predictions kv.2.answers
  let subs ← kv.2.sub_field.mapM (fun skv => do
    let sacc ← calculate_accuracy skv.2.predictions skv.2.answers
    pure (skv.1, sacc))
  pure (kv.1, FieldScore.mk facc subs)

/-- `calculate_field_accuracy(results)`: build `field_data`, then emit
per-field scores (iterating the never-written `"sub_field"` dict for the
sub-field scores) and the overall score. -/
def calculate_field_accuracy (results : List Task1Item) : Except String FieldScores := do
  let fields ← (results.foldl fieldDataStep []).mapM fieldScoreOf
  let overall ← calculate_accuracy (results.map (·.prediction)) (results.map (·.answer))
  pure ⟨fields, overall⟩

/-! ## The resumable evaluation loop (src/tasks/task1_evaluator.py, lines 65-130)

Python iterates `evaluation_data` (a list of dicts) once per iteration,
computes the flat `result_index = sample_idx + iteration * total_samples`,
skips any index below `len(evaluation_results)`, and otherwise mutates
the sample dict **in place** with `response`/`prediction`, appends one
JSON snapshot of it to the output file, and appends the dict (a
reference, not a copy) to `evaluation_results`.  The model keeps the
dataset as an explicit store, the accumulator as a list of references
into the store (or of loaded-from-file values, which are fresh), and the
output file as the list of appended snapshots.  `model.chat` is an
oracle over the flat index (for a fixed dataset the prompt is a function
of the flat index); an extra `genCalls` counter observes how many
generations were performed. -/

/-- A task1/task2 sample dict; `response`/`prediction` are `none` while
the key has not been written yet. -/
structure PSample where
  question : List Char
  field : List Char
  sub_field : List Char
  answer : List Char
  response : Option (List Char)
  prediction : Option (Option (List Char))
  deriving DecidableEq, Repr

/-- An entry of the in-memory accumulator: a record loaded from the
output file (a fresh dict) or a reference to a dataset sample. -/
inductive RRef (α : Type) where
  | loaded (r : α)
  | live (idx : Nat)
  deriving DecidableEq, Repr

/-- The state of the task1 loop. -/
structure LoopState where
  store : List PSample
  results : List (RRef PSample)
  file : List PSample
  genCalls : Nat
  deriving DecidableEq, Repr

/-- The default (never observed) sample used for out-of-range indexing. -/
def defaultPSample : PSample := ⟨[], [], [], [], none, none⟩

/-- One inner-loop step of `run_evaluation_task1` for `(iteration,
sampleIdx)`: skip when the flat index is below the accumulator length,
otherwise generate, mutate the store, append the snapshot to the file
and the reference to the accumulator. -/
def task1Step (oracle : Nat → List Char) (n iteration : Nat) (st : LoopState)
    (sampleIdx : Nat) : LoopState :=
  let resultIndex := sampleIdx + iteration * n
  if resultIndex < st.results.length then st
  else
    let resp := oracle resultIndex
    let sample := st.store.getD sampleIdx defaultPSample
    let sample := { sample with
      response := some resp, prediction := some (extractBoxedCore resp) }
    { store := st.store.set sampleIdx sample,
      results := st.results ++ [RRef.live sampleIdx],
      file := st.file ++ [sample],
      genCalls := st.genCalls + 1 }

/-- The double loop of `run_evaluation_task1`: iterations outside,
samples inside.  `prior` is the content of the output file as loaded on
entry (fresh dicts); the `file` component starts as `prior` so that it
models the full on-disk content after the run. -/
def runTask1Loop (data : List PSample) (testTime : Nat) (prior : List PSample)
    (oracle : Nat → List Char) : LoopState :=
  let n := data.length
  (List.range testTime).foldl
    (fun st iteration => (List.range n).foldl (task1Step oracle n iteration) st)
    ⟨data, prior.map RRef.loaded, prior, 0⟩

/-- Dereference the in-memory accumulator against the final store: what
the final aggregation of `run_evaluation_task1` actually reads. -/
def derefResults (st : LoopState) : List PSample :=
  st.results.map (fun r => match r with
    | .loaded r => r
    | .live idx => st.store.getD idx defaultPSample)

/-- A result record viewed as a `calculate_field_accuracy` input
(`item["prediction"]` of a record produced by the loop). -/
def psampleToItem (p : PSample) : Task1Item :=
  ⟨p.answer, p.prediction.join, p.field, p.sub_field⟩

/-- `run_evaluation_task1` (src/tasks/task1_evaluator.py, lines 65-130):
the loop followed by aggregation over the in-memory accumulator. -/
def run_evaluation_task1 (data : List PSample) (testTime : Nat) (prior : List PSample)
    (oracle : Nat → List Char) : LoopState × Except String FieldScores :=
  let final := runTask1Loop data testTime prior oracle
  (final, calculate_field_accuracy ((derefResults final).map psampleToItem))

/-- The record that the loop appends for flat index `f` (provided the
store still carries the dataset's base fields at `f % N`, which the loop
preserves). -/
def task1RecordAt (data : List PSample) (oracle : Nat → List Char) (f : Nat) : PSample :=
  let base := data.getD (f % data.length) defaultPSample
  { base with
    response := some (oracle f),
    prediction := some (extractBoxedCore (oracle f)) }

/-- The inner-loop step re-indexed by the flat index `f = sampleIdx +
iteration * n`; used to state the loop's characterisation theorem. -/
def task1StepFlat (oracle : Nat → List Char) (n : Nat) (st : LoopState) (f : Nat) :
    LoopState :=
  task1Step oracle n (f / n) st (f % n)

/-- A sample with its mutable `response`/`prediction` keys erased: the
part of a sample the loop never changes. -/
def stripRP (p : PSample) : PSample :=
  { p with response := none, prediction := none }

/-- The state after the first `k` flat steps of the task1 loop. -/
def task1FlatState (data : List PSample) (o : Nat → List Char) (prior : List PSample)
    (k : Nat) : LoopState :=
  (List.range k).foldl (task1StepFlat o data.length)
    ⟨data, prior.map RRef.loaded, prior, 0⟩

/-! ## Stage A of task 3 (src/tasks/task3_evaluator.py, lines 16-71)

`generate_knowledge_for_task3` makes a single pass over the dataset with
the same skip-by-count resume rule, but wraps the per-sample work in
`try/except`: on an exception nothing is appended and the loop continues
with the next sample.  The per-sample work (prompt build, `model.chat`,
extraction) is abstracted as an oracle returning either a response text
or an exception.  The `attempted` component is instrumentation recording
which sample indices entered the `try` block. -/

/-- A task3 sample dict. -/
structure KSample where
  guideline : List Char
  material : List Char
  question : List Char
  answer : List Char
  response : Option (List Char)
  knowledge : Option PyJson
  prediction : Option (Option (List Char))

/-- The state of stage A. -/
structure KLoopState where
  store : List KSample
  results : List (RRef KSample)
  file : List KSample
  attempted : List Nat

/-- The default (never observed) task3 sample. -/
def defaultKSample : KSample := ⟨[], [], [], [], none, none, none⟩

/-- One step of stage A at `sampleIdx`. -/
def knowledgeStep (gen : Nat → Except Unit (List Char)) (st : KLoopState)
    (sampleIdx : Nat) : KLoopState :=
  if sampleIdx < st.results.length then st
  else
    match gen sampleIdx with
    | .error _ => { st with attempted := st.attempted ++ [sampleIdx] }
    | .ok resp =>
      let sample := st.store.getD sampleIdx defaultKSample
      let sample := { sample with
        response := some resp, knowledge := some (extractKnowledgeCore resp) }
      { store := st.store.set sampleIdx sample,
        results := st.results ++ [RRef.live sampleIdx],
        file := st.file ++ [sample],
        attempted := st.attempted ++ [sampleIdx] }

/-- `generate_knowledge_for_task3` (src/tasks/task3_evaluator.py, lines
16-71).  The early `return` taken when `samples_to_process <= 0` is
omitted: in that case every index is skipped by the loop anyway, with the
same resulting state. -/
def generate_knowledge_for_task3 (data : List KSample) (prior : List KSample)
    (gen : Nat → Except Unit (List Char)) : KLoopState :=
  (List.range data.length).foldl (knowledgeStep gen)
    ⟨data, prior.map RRef.loaded, prior, []⟩

/-- Dereference stage A's accumulator: the returned `knowledge_results`. -/
def derefKResults (st : KLoopState) : List KSample :=
  st.results.map (fun r => match r with
    | .loaded r => r
    | .live idx => st.store.getD idx defaultKSample)

/-! ## Stage B of task 3 (src/tasks/task3_evaluator.py, lines 95-191) -/

/-- `calculate_overall_accuracy` (also src/tasks/task2_evaluator.py):
collect the parallel answer/prediction lists and score them. -/
def calculate_overall_accuracy (results : List KSample) : Except String ℚ :=
  calculate_accuracy (results.map (fun r => r.prediction.join))
    (results.map (fun r => r.answer))

/-- The state of one student's loop (same shape as the task1 loop). -/
structure SLoopState where
  store : List KSample
  results : List (RRef KSample)
  file : List KSample
  genCalls : Nat

/-- One inner-loop step of `run_evaluation_student`. -/
def studentStep (oracle : Nat → List Char) (n iteration : Nat) (st : SLoopState)
    (sampleIdx : Nat) : SLoopState :=
  let resultIndex := sampleIdx + iteration * n
  if resultIndex < st.results.length then st
  else
    let resp := oracle resultIndex
    let sample := st.store.getD sampleIdx defaultKSample
    let sample := { sample with
      response := some resp, prediction := some (extractBoxedCore resp) }
    { store := st.store.set sampleIdx sample,
      results := st.results ++ [RRef.live sampleIdx],
      file := st.file ++ [sample],
      genCalls := st.genCalls + 1 }

/-- Dereference a student loop's accumulator. -/
def derefSResults (st : SLoopState) : List KSample :=
  st.results.map (fun r => match r with
    | .loaded r => r
    | .live idx => st.store.getD idx defaultKSample)

/-- `run_evaluation_student` (src/tasks/task3_evaluator.py, lines
95-168): the resumable double loop over the knowledge dataset followed
by `calculate_overall_accuracy` on the in-memory accumulator.  (The
`model_name` entry added to the returned dict is carried by the caller's
key instead.) -/
def run_evaluation_student (data : List KSample) (testTime : Nat)
    (prior : List KSample) (oracle : Nat → List Char) :
    SLoopState × Except String ℚ :=
  let n := data.length
  let final := (List.range testTime).foldl
    (fun st iteration => (List.range n).foldl (studentStep oracle n iteration) st)
    ⟨data, prior.map RRef.loaded, prior, 0⟩
  (final, calculate_overall_accuracy (derefSResults final))

/-- The fixed student roster of `run_evaluation_task3`. -/
def studentRoster : List String :=
  ["qwen-1_8b", "qwen-7b", "qwen-14b", "yi-6b", "internlm2-7b"]

/-- The value returned by `run_evaluation_task3`. -/
structure Task3Score where
  overall : ℚ
  student_scores : List (String × ℚ)

/-- `run_evaluation_task3` (src/tasks/task3_evaluator.py, lines 171-191):
stage A, then one full student run per roster entry — each over
`copy.deepcopy` of stage A's output, which the by-value semantics of the
model renders literally — collecting `accuracy_score["overall"]` per
student, and finally the arithmetic mean.  Each student's resume file and
backend are its own (`studentPrior`/`studentOracle` keyed by name). -/
def run_evaluation_task3 (data : List KSample) (teacherPrior : List KSample)
    (gen : Nat → Except Unit (List Char)) (studentPrior : String → List KSample)
    (studentOracle : String → Nat → List Char) (testTime : Nat) :
    Except String Task3Score := do
  let kdata := derefKResults (generate_knowledge_for_task3 data teacherPrior gen)
  let scores ← studentRoster.mapM (fun name => do
    let acc ← (run_evaluation_student kdata testTime (studentPrior name)
      (studentOracle name)).2
    pure (name, acc))
  let values := scores.map (·.2)
  pure ⟨(values.sum) / (values.length : ℚ), scores⟩

/-! ## Well-formed boxed spans

A family of self-delimiting boxed spans used to state the prepending
properties of the answer extractor.  Contents are restricted to "tame"
characters so that a span contains no nested `\boxed{` and the matcher
consumes exactly the span. -/

/-- The option letters. -/
def letterOf (i : Fin 4) : Char := (['A', 'B', 'C', 'D'] : List Char).get i

/-- A well-formed boxed span:
`bare i` is `\boxed{L}`, `wrapped body` is `\boxed{\text{body}}`,
`dotted i s` is `\boxed{L.s}`. -/
inductive BoxedSpan where
  | bare (i : Fin 4)
  | wrapped (body : List Char)
  | dotted (i : Fin 4) (s : List Char)

/-- Well-formedness: a wrapped body holds no `}` and no backslash (it
may hold newlines and `{`); a dotted tail additionally holds no
newline. -/
def spanWF : BoxedSpan → Prop
  | .bare _ => True
  | .wrapped body => body.all (fun c => c ≠ '}' && c ≠ '\\') = true
  | .dotted _ s => s.all (fun c => c ≠ '}' && c ≠ '\n' && c ≠ '\\') = true

/-- The text of a span. -/
def renderSpan : BoxedSpan → List Char
  | .bare i => boxedLit ++ [letterOf i, '}']
  | .wrapped body => boxedLit ++ textLit ++ body ++ ['}', '}']
  | .dotted i s => boxedLit ++ letterOf i :: '.' :: s ++ ['}']

/-- The groups a span's match captures. -/
def spanGroups : BoxedSpan → BGroups
  | .bare i => ⟨[], [], [letterOf i]⟩
  | .wrapped body => ⟨body, [], []⟩
  | .dotted i s => ⟨[], letterOf i :: '.' :: s, []⟩

/-- The concatenation of a list of spans. -/
def renderSpans (ss : List BoxedSpan) : List Char :=
  (ss.map renderSpan).join

/-! ## Definitions taken from the specification's words

These two definitions are *not* translations of the source; they follow
the claims' wording and exist only to be compared against the source
translation. -/

/-- Claim C10's wording of the fallback: split on `"knowledge":`, take
everything after the last occurrence, and strip **exactly one layer** of
leading and trailing double-quote characters. -/
def claimOneLayerFallback (ct : List Char) : List Char :=
  let t := afterLastSub kLit ct
  let t := match t with
    | '"' :: r => r
    | other => other
  if t.getLast? = some '"' then t.dropLast else t

/-! ## Theorems about the scanning helpers -/

theorem dropWhileLenLe (p : Char → Bool) :
    ∀ cs : List Char, (cs.dropWhile p).length ≤ cs.length := by
  intro cs
  induction cs with
  | nil => simp [List.dropWhile]
  | cons c cs ih =>
    simp only [List.dropWhile]
    split
    · simp only [List.length_cons]; omega
    · simp

theorem scanDotEnd_rest_le :
    ∀ {cs mid rest : List Char}, scanDotEnd cs = some (mid, rest) →
      rest.length ≤ cs.length := by
  intro cs
  induction cs with
  | nil => intro mid rest h; simp [scanDotEnd] at h
  | cons c cs ih =>
    intro mid rest h
    simp only [scanDotEnd] at h
    split at h
    · cases h; simp
    · split at h
      · cases h
      · obtain ⟨⟨a, b⟩, hab, heq⟩ := Option.map_eq_some'.mp h
        cases heq
        have := ih hab
        simp only [List.length_cons]
        omega

theorem braceClose_snd_le (mid after : List Char) :
    (braceClose mid after).2.length ≤ after.length := by
  unfold braceClose
  split <;> simp <;> omega

theorem tryTextBranch_rest_le :
    ∀ {cs : List Char} {g : BGroups} {rest : List Char},
      tryTextBranch cs = some (g, rest) → rest.length ≤ cs.length := by
  intro cs g rest h
  simp only [tryTextBranch] at h
  split at h
  · split at h
    next heq =>
      cases h
      have h1 : (((dropWS cs).drop 6).dropWhile (fun c => c ≠ '}')).length ≤
          ((dropWS cs).drop 6).length := dropWhileLenLe _ _
      rw [heq] at h1
      have h2 : (dropWS cs).length ≤ cs.length := dropWhileLenLe _ _
      simp only [List.length_cons, List.length_drop] at h1 ⊢
      omega
    next => cases h
  · cases h

theorem tryDottedBranch_rest_le :
    ∀ {cs : List Char} {g : BGroups} {rest : List Char},
      tryDottedBranch cs = some (g, rest) → rest.length ≤ cs.length := by
  intro cs g rest h
  have hws : (dropWS cs).length ≤ cs.length := dropWhileLenLe _ _
  simp only [tryDottedBranch] at h
  generalize hgen : (match dropWS cs with
      | '{' :: r => r
      | _ => dropWS cs) = cs2 at h
  have hcs2 : cs2.length ≤ cs.length := by
    rw [← hgen]
    split
    next r heq =>
      have : (dropWS cs).length = r.length + 1 := by rw [heq]; simp
      omega
    next => exact hws
  split at h
  next c d rest2 =>
    simp only [List.length_cons] at hcs2
    split at h
    · rcases hscan : scanDotEnd rest2 with _ | ⟨mid, brest⟩ <;> rw [hscan] at h
      · cases h
      · rcases brest with _ | ⟨x, after⟩
        · cases h
        · have hsc := scanDotEnd_rest_le hscan
          simp only [List.length_cons] at hsc
          have hbc := braceClose_snd_le mid after
          cases h
          omega
    · cases h
  next => cases h

theorem tryBareBranch_rest_le :
    ∀ {cs : List Char} {g : BGroups} {rest : List Char},
      tryBareBranch cs = some (g, rest) → rest.length ≤ cs.length := by
  intro cs g rest h
  have hws : (dropWS cs).length ≤ cs.length := dropWhileLenLe _ _
  simp only [tryBareBranch] at h
  split at h
  next c r heq =>
    split at h
    · split at h
      next r2 heq2 =>
        cases h
        have h1 : (dropWS r).length ≤ r.length := dropWhileLenLe _ _
        have h2 : (dropWS cs).length = r.length + 1 := by rw [heq]; simp
        have h3 : (dropWS r).length = rest.length + 1 := by rw [heq2]; simp
        omega
      next => cases h
    · cases h
  next => cases h

theorem matchBoxedAt_rest_le {cs : List Char} {g : BGroups} {rest : List Char}
    (h : matchBoxedAt cs = some (g, rest)) : rest.length ≤ cs.length := by
  simp only [matchBoxedAt] at h
  split at h
  next heq => cases h; exact tryTextBranch_rest_le heq
  next =>
    split at h
    next heq => cases h; exact tryDottedBranch_rest_le heq
    next => exact tryBareBranch_rest_le h

theorem boxedFindAllF_irrel :
    ∀ (f : Nat) {f' : Nat} {cs : List Char}, cs.length ≤ f → cs.length ≤ f' →
      boxedFindAllF f cs = boxedFindAllF f' cs := by
  intro f
  induction f with
  | zero =>
    intro f' cs h h'
    have : cs = [] := List.length_eq_zero.mp (Nat.le_zero.mp h)
    subst this
    cases f' <;> rfl
  | succ f ih =>
    intro f' cs h h'
    cases cs with
    | nil => cases f' <;> rfl
    | cons c cs' =>
      cases f' with
      | zero => simp at h'
      | succ f'2 =>
        simp only [List.length_cons] at h h'
        simp only [boxedFindAllF]
        split
        · rcases hm : matchBoxedAt ((c :: cs').drop 7) with _ | ⟨g, rest⟩
          · exact ih (by omega) (by omega)
          · have hr := matchBoxedAt_rest_le hm
            simp only [List.length_drop, List.length_cons] at hr
            exact congrArg (g :: ·) (ih (by omega) (by omega))
        · exact ih (by omega) (by omega)

/-- Step equation for `boxedFindAll` on a nonempty list, with the
recursive occurrences again phrased through `boxedFindAll`. -/
theorem boxedFindAll_cons (c : Char) (cs : List Char) :
    boxedFindAll (c :: cs) =
      if boxedLit.isPrefixOf (c :: cs) then
        match matchBoxedAt ((c :: cs).drop 7) with
        | some (g, rest) => g :: boxedFindAll rest
        | none => boxedFindAll cs
      else boxedFindAll cs := by
  show boxedFindAllF (cs.length + 1) (c :: cs) = _
  simp only [boxedFindAllF]
  split
  · rcases hm : matchBoxedAt ((c :: cs).drop 7) with _ | ⟨g, rest⟩
    · exact boxedFindAllF_irrel _ (le_refl _) (le_refl _)
    · have hr := matchBoxedAt_rest_le hm
      simp only [List.length_drop, List.length_cons] at hr
      exact congrArg (g :: ·) (boxedFindAllF_irrel _ (by omega) (le_refl _))
  · exact boxedFindAllF_irrel _ (le_refl _) (le_refl _)

example : extract_last_boxed_answer "blah \\boxed\x7b\\text\x7bB. some text\x7d\x7d blah" = some "B" := by decide

example : extract_last_boxed_answer "no answer here" = none := by decide

example : extract_last_boxed_answer "x \\boxed\x7bA\x7d y" = some "A" := by decide

example : extract_last_boxed_answer "\\boxed\x7bC. first\x7d and \\boxed\x7bD\x7d" = some "D" := by decide

example : extract_last_boxed_answer "\\boxed\x7b\\text\x7bB. a \x7bb\x7d c\x7d\x7d" = none := by decide
theorem zipFilterLen (f : Option (List Char) × List Char → Bool) :
    ∀ (p : List (Option (List Char))) (a : List (List Char)), p.length = a.length →
      ((p.zip a).filter f).length =
        (List.range p.length).countP (fun i => f (p.getD i none, a.getD i [])) := by
  intro p
  induction p with
  | nil => intro a h; simp
  | cons x p ih =>
    intro a h
    cases a with
    | nil => simp at h
    | cons y a =>
      simp only [List.length_cons, Nat.succ.injEq] at h
      have hih := ih a h
      have hcomp : ((fun i => f ((x :: p).getD i none, (y :: a).getD i [])) ∘ Nat.succ) =
          (fun i => f (p.getD i none, a.getD i [])) := by
        funext i
        simp [Function.comp, List.getD_cons_succ]
      simp only [List.zip_cons_cons, List.filter_cons, List.length_cons,
        List.range_succ_eq_map, List.countP_cons, List.countP_map, hcomp,
        List.getD_cons_zero, List.getD_cons_succ]
      by_cases hf : f (x, y) = true <;>
        simp only [hf, if_true, if_false, Bool.false_eq_true, List.length_cons, hih] <;>
        omega
/-! ## The claims -/

/-- C5: for every pair of equal-length lists, `calculate_accuracy`
returns the fraction of positions whose prediction is present and
case-insensitively equal to the corresponding answer (absent predictions
count as incorrect, never raise, never skip), so
`accuracy(["a", None, "C"], ["A", "B", "C"]) = 2/3`; for unequal lengths
it fails with a length-mismatch error; and for two empty lists it
returns `0.0`, not an error and not NaN. -/
theorem claim_c5_calculate_accuracy :
    (∀ (p : List (Option (List Char))) (a : List (List Char)), p.length = a.length →
      calculate_accuracy p a = .ok (if 0 < p.length then
        (((List.range p.length).countP (fun i =>
          match p.getD i none with
          | some s => decide (pyUpper s = pyUpper (a.getD i []))
          | none => false)) : ℚ) / p.length else 0))
    ∧ calculate_accuracy [some ['a'], none, some ['C']] [['A'], ['B'], ['C']] = .ok (2 / 3)
    ∧ (∀ (p : List (Option (List Char))) (a : List (List Char)), p.length ≠ a.length →
        calculate_accuracy p a = .error "Number of predictions and answers must be equal")
    ∧ calculate_accuracy [] [] = .ok 0 := by
  refine ⟨?_, by rfl, ?_, by rfl⟩
  · intro p a h
    have hz := zipFilterLen (fun pa => match pa.1 with
      | some s => decide (pyUpper s = pyUpper pa.2)
      | none => false) p a h
    simp only [calculate_accuracy, h, ne_eq, not_true_eq_false, if_false, ite_false, hz]
  · intro p a h
    simp only [calculate_accuracy, h, ne_eq, not_false_eq_true, if_true, ite_true]

/-- Witness for C5 at concrete inputs. -/
theorem claim_c5_witness :
    calculate_accuracy [some ['a'], none, some ['C']] [['A'], ['B'], ['C']] =
      .ok (if 0 < ([some ['a'], none, some ['C']] : List (Option (List Char))).length then
        (((List.range ([some ['a'], none, some ['C']] : List (Option (List Char))).length).countP
          (fun i =>
            match ([some ['a'], none, some ['C']] : List (Option (List Char))).getD i none with
            | some s => decide (pyUpper s = pyUpper (([['A'], ['B'], ['C']] : List (List Char)).getD i []))
            | none => false)) : ℚ) /
          ([some ['a'], none, some ['C']] : List (Option (List Char))).length else 0) ∧
    calculate_accuracy [some ['a']] [] =
      .error "Number of predictions and answers must be equal" :=
  ⟨claim_c5_calculate_accuracy.1 _ _ (by decide),
   claim_c5_calculate_accuracy.2.2.1 _ _ (by decide)⟩
theorem alistSet_mem {α : Type} :
    ∀ (l : List (List Char × α)) (k : List Char) (v : α) (kv : List Char × α),
      kv ∈ alistSet l k v → kv = (k, v) ∨ kv ∈ l := by
  intro l k v
  induction l with
  | nil => intro kv h; simp [alistSet] at h; exact Or.inl h
  | cons kv0 rest ih =>
    intro kv h
    simp only [alistSet] at h
    split at h
    · rcases List.mem_cons.mp h with h1 | h1
      · exact Or.inl h1
      · exact Or.inr (List.mem_cons_of_mem _ h1)
    · rcases List.mem_cons.mp h with h1 | h1
      · exact Or.inr (by rw [h1]; exact List.mem_cons_self _ _)
      · rcases ih kv h1 with h2 | h2
        · exact Or.inl h2
        · exact Or.inr (List.mem_cons_of_mem _ h2)

theorem alistGet_mem {α : Type} :
    ∀ (l : List (List Char × α)) (k : List Char) (v : α),
      alistGet l k = some v → (k, v) ∈ l := by
  intro l k v
  induction l with
  | nil => intro h; simp [alistGet] at h
  | cons kv0 rest ih =>
    intro h
    simp only [alistGet] at h
    split at h
    next heq =>
      cases h
      exact List.mem_cons.mpr (Or.inl (by rw [← heq]))
    · exact List.mem_cons_of_mem _ (ih h)

theorem fieldDataStep_subfield_nil
    (fd : List (List Char × FieldBucket)) (item : Task1Item)
    (hfd : ∀ kv ∈ fd, kv.2.sub_field = []) :
    ∀ kv ∈ fieldDataStep fd item, kv.2.sub_field = [] := by
  intro kv hkv
  simp only [fieldDataStep] at hkv
  set fd1 := if (alistGet fd item.field).isNone then
      fd ++ [(item.field, ⟨[], [], [], []⟩)] else fd with hfd1
  have hfd1mem : ∀ kv ∈ fd1, kv.2.sub_field = [] := by
    intro kv2 h2
    rw [hfd1] at h2
    split at h2
    · rcases List.mem_append.mp h2 with h3 | h3
      · exact hfd _ h3
      · simp at h3
        rw [h3]
    · exact hfd _ h2
  have hfb : ((alistGet fd1 item.field).getD ⟨[], [], [], []⟩).sub_field = [] := by
    rcases hg : alistGet fd1 item.field with _ | v
    · simp
    · simpa using hfd1mem _ (alistGet_mem _ _ _ hg)
  rcases alistSet_mem _ _ _ _ hkv with h1 | h1
  · rw [h1]
    split <;> simpa using hfb
  · exact hfd1mem _ h1

theorem fieldData_subfield_nil :
    ∀ (items : List Task1Item) (fd : List (List Char × FieldBucket)),
      (∀ kv ∈ fd, kv.2.sub_field = []) →
      ∀ kv ∈ items.foldl fieldDataStep fd, kv.2.sub_field = [] := by
  intro items
  induction items with
  | nil => intro fd h; simp only [List.foldl_nil]; exact h
  | cons item rest ih =>
    intro fd h
    simp only [List.foldl_cons]
    exact ih _ (fieldDataStep_subfield_nil fd item h)

theorem fieldScoreOf_subs_nil {kv : List Char × FieldBucket}
    (h : kv.2.sub_field = []) {r : List Char × FieldScore}
    (hr : fieldScoreOf kv = .ok r) : r.2.subs = [] := by
  simp only [fieldScoreOf, h] at hr
  rcases hacc : calculate_accuracy kv.2.predictions kv.2.answers with e | q <;>
    rw [hacc] at hr
  · cases hr
  · simp only [List.mapM_nil, Bind.bind, Except.bind, Pure.pure, Except.pure,
      Except.ok.injEq] at hr
    rw [← hr]

theorem mapM_fieldScoreOf_subs_nil :
    ∀ (fd : List (List Char × FieldBucket)) (fields : List (List Char × FieldScore)),
      (∀ kv ∈ fd, kv.2.sub_field = []) →
      fd.mapM fieldScoreOf = .ok fields →
      ∀ fs ∈ fields, fs.2.subs = [] := by
  intro fd
  induction fd with
  | nil =>
    intro fields _ h fs hfs
    simp only [List.mapM_nil, Pure.pure, Except.pure, Except.ok.injEq] at h
    rw [← h] at hfs
    simp at hfs
  | cons kv rest ih =>
    intro fields hnil h fs hfs
    rw [List.mapM_cons] at h
    rcases h1 : fieldScoreOf kv with e | r <;> rw [h1] at h
    · cases h
    · rcases h2 : rest.mapM fieldScoreOf with e | rs <;> rw [h2] at h
      · cases h
      · simp only [Bind.bind, Except.bind, Pure.pure, Except.pure, Except.ok.injEq] at h
        rw [← h] at hfs
        rcases List.mem_cons.mp hfs with h3 | h3
        · rw [h3]
          exact fieldScoreOf_subs_nil (hnil kv (List.mem_cons_self _ _)) h1
        · exact ih rs (fun kv2 hm => hnil kv2 (List.mem_cons_of_mem _ hm)) h2 fs h3
/-- C2 (code bug): the claim — and the specification — say that for each
distinct field the returned mapping holds that field's `"overall"` scalar
AND one scalar per distinct sub-field encountered in it.  In the code the
membership test `sub_field not in field_data[field]["sub_field"]`
consults a dict that is never written (the assignment that was meant to
populate it goes to `field_data[field][sub_field]` instead), so the
scoring loop over `field_data[field]["sub_field"]` iterates an empty
dict and the result never contains any sub-field entry.  First part:
every field entry of any successful result has an empty sub-field list.
Second part: the failing input — two records with sub-fields `algebra`
and `geometry` — yields only `overall` entries. -/
theorem claim_c2_field_accuracy_no_subfields :
    (∀ (items : List Task1Item) (sc : FieldScores),
      calculate_field_accuracy items = .ok sc → ∀ fs ∈ sc.fields, fs.2.subs = [])
    ∧ calculate_field_accuracy
        [⟨"A".data, some "A".data, "math".data, "algebra".data⟩,
         ⟨"B".data, none, "math".data, "geometry".data⟩] =
      .ok ⟨[("math".data, ⟨1/2, []⟩)], 1/2⟩ := by
  refine ⟨?_, by rfl⟩
  intro items sc h fs hfs
  simp only [calculate_field_accuracy, Bind.bind, Except.bind] at h
  rcases h1 : (items.foldl fieldDataStep []).mapM fieldScoreOf with e | fields <;>
    rw [h1] at h
  · cases h
  · rcases h2 : calculate_accuracy (items.map (·.prediction)) (items.map (·.answer))
      with e | q <;> rw [h2] at h
    · cases h
    · simp only [Pure.pure, Except.pure, Except.ok.injEq] at h
      rw [← h] at hfs
      exact mapM_fieldScoreOf_subs_nil _ _
        (fieldData_subfield_nil items [] (by simp)) h1 fs hfs

/-- Witness for C2: the theorem applied to the concrete failing input. -/
theorem claim_c2_witness : (FieldScore.mk (1/2) []).subs = [] :=
  claim_c2_field_accuracy_no_subfields.1 _ _
    claim_c2_field_accuracy_no_subfields.2 ("math".data, ⟨1/2, []⟩) (by simp)
theorem lstripQuoteGuard (l : List Char) :
    (if l.head? = some '"' then l.dropWhile (fun c => c = '"') else l) =
      pyLStripSet ['"'] l := by
  have hfun : (fun c => (['"'] : List Char).contains c) = (fun c : Char => decide (c = '"')) := by
    funext c
    by_cases h : c = '"'
    · subst h; simp
    · simp [h]
  rw [pyLStripSet, hfun]
  cases l with
  | nil => simp
  | cons c r =>
    by_cases hc : c = '"'
    · subst hc
      simp only [List.head?_cons, if_true]
    · simp only [List.head?_cons, Option.some.injEq]
      rw [if_neg hc, List.dropWhile_cons_of_neg (by simpa using hc)]

theorem rstripQuoteGuard (l : List Char) :
    (if l.getLast? = some '"' then (l.reverse.dropWhile (fun c => c = '"')).reverse else l) =
      pyRStripSet ['"'] l := by
  have hfun : (fun c => (['"'] : List Char).contains c) = (fun c : Char => decide (c = '"')) := by
    funext c
    by_cases h : c = '"'
    · subst h; simp
    · simp [h]
  rw [pyRStripSet, hfun]
  rcases hlast : l.getLast? with _ | c
  · rw [List.getLast?_eq_none] at hlast
    subst hlast
    simp
  · have hrev : l.reverse.head? = some c := by rw [List.head?_reverse]; exact hlast
    by_cases hc : c = '"'
    · subst hc
      rw [if_pos (rfl : (some '"' : Option Char) = some '"')]
    · rw [if_neg (by simp [hc])]
      have hstop : l.reverse.dropWhile (fun c => decide (c = '"')) = l.reverse := by
        cases hr : l.reverse with
        | nil => rfl
        | cons a r =>
          have ha : a = c := by rw [hr] at hrev; simpa using hrev
          rw [List.dropWhile_cons_of_neg]
          simp [ha, hc]
      rw [hstop, List.reverse_reverse]

/-- C10 (counterexample to the claim as stated): on the candidate span
`{"knowledge":""v"}` — whose content fails to parse as JSON — the decode
step returns `v"}` (Python `lstrip('"')` removes **all** leading quote
characters), while the claim's "strip exactly one layer" heuristic
yields `"v"}`. -/
theorem claim_c10_counterexample :
    pyJsonParse (fenceClean ("\x7b\"knowledge\":\"\"v\"\x7d").data) = none ∧
    extract_knowledge_from_text ("\x7b\"knowledge\":\"\"v\"\x7d").data =
      PyJson.str ['v', '"', '\x7d'] ∧
    claimOneLayerFallback (fenceClean ("\x7b\"knowledge\":\"\"v\"\x7d").data) =
      ['"', 'v', '"', '\x7d'] ∧
    (['v', '"', '\x7d'] : List Char) ≠ ['"', 'v', '"', '\x7d'] :=
  ⟨rfl, rfl, rfl, by decide⟩

/-- C10 (amended): for every text whose fence-cleaned content contains
`"knowledge":` and fails to parse as a JSON object, the knowledge decode
step falls back to the textual heuristic: split on the literal substring
`"knowledge":`, take everything after the last occurrence, strip
surrounding whitespace, and remove **all** leading and **all** trailing
double-quote characters. -/
theorem claim_c10_fallback_amended (t : List Char)
    (hk : hasSubst kLit (fenceClean t) = true)
    (hp : ∀ kvs, pyJsonParse (fenceClean t) ≠ some (PyJson.obj kvs)) :
    extract_knowledge_from_text t =
      PyJson.str (pyRStripSet ['"'] (pyLStripSet ['"']
        (pyStrip (afterLastSub kLit (fenceClean t))))) := by
  have hfb : kFallback (fenceClean t) =
      pyRStripSet ['"'] (pyLStripSet ['"'] (pyStrip (afterLastSub kLit (fenceClean t)))) := by
    rw [kFallback]
    simp only [hk, if_true]
    rw [lstripQuoteGuard, rstripQuoteGuard]
  rw [extract_knowledge_from_text]
  rcases hparse : pyJsonParse (fenceClean t) with _ | v
  · simp only [hparse, hfb]
  · cases v with
    | obj kvs => exact absurd hparse (hp kvs)
    | null => simp only [hparse, hfb]
    | bool b => simp only [hparse, hfb]
    | num q => simp only [hparse, hfb]
    | nan => simp only [hparse, hfb]
    | inf neg => simp only [hparse, hfb]
    | str s => simp only [hparse, hfb]
    | arr elems => simp only [hparse, hfb]

/-- Witness for the amended C10 at the counterexample input. -/
theorem claim_c10_witness :
    extract_knowledge_from_text ("\x7b\"knowledge\":\"\"v\"\x7d").data =
      PyJson.str (pyRStripSet ['"'] (pyLStripSet ['"']
        (pyStrip (afterLastSub kLit (fenceClean ("\x7b\"knowledge\":\"\"v\"\x7d").data))))) :=
  claim_c10_fallback_amended _ (by decide)
    (fun kvs hkvs => by
      rw [show pyJsonParse (fenceClean ("\x7b\"knowledge\":\"\"v\"\x7d").data) = none
        from rfl] at hkvs
      cases hkvs)
theorem hasSubst_suffix_false {pat : List Char} :
    ∀ {l1 : List Char}, hasSubst pat l1 = false →
      ∀ {l2 : List Char}, l2 <:+ l1 → hasSubst pat l2 = false := by
  intro l1
  induction l1 with
  | nil =>
    intro h l2 hsfx
    rw [List.suffix_nil.mp hsfx]
    exact h
  | cons c cs ih =>
    intro h l2 hsfx
    simp only [hasSubst, Bool.or_eq_false_iff] at h
    rcases List.suffix_cons_iff.mp hsfx with h2 | h2
    · rw [h2]
      simp only [hasSubst, Bool.or_eq_false_iff]
      exact h
    · exact ih h.2 h2

theorem isPrefixOf_hasSubst {pat l : List Char} (h : pat.isPrefixOf l = true) :
    hasSubst pat l = true := by
  cases l with
  | nil =>
    simp only [hasSubst]
    cases pat with
    | nil => rfl
    | cons a r => simp [List.isPrefixOf] at h
  | cons c cs => simp [hasSubst, h]

theorem splitOnSub_none_of_no {pat : List Char} :
    ∀ {cs : List Char}, hasSubst pat cs = false → splitOnSub pat cs = none := by
  intro cs
  induction cs with
  | nil =>
    intro h
    simp only [hasSubst] at h
    simp [splitOnSub, h]
  | cons c cs ih =>
    intro h
    simp only [hasSubst, Bool.or_eq_false_iff] at h
    simp only [splitOnSub]
    rw [if_neg (by simp [h.1]), ih h.2]
    rfl

theorem boxedFindAllF_nil_of_no_marker :
    ∀ (f : Nat) {cs : List Char}, hasSubst boxedLit cs = false →
      boxedFindAllF f cs = [] := by
  intro f
  induction f with
  | zero => intro cs h; rfl
  | succ f ih =>
    intro cs h
    cases cs with
    | nil => rfl
    | cons c cs' =>
      simp only [hasSubst, Bool.or_eq_false_iff] at h
      simp only [boxedFindAllF]
      rw [if_neg (by simp [h.1])]
      exact ih h.2

theorem p1InnerF_none_of_no {cs : List Char} (h : hasSubst kLit cs = false) :
    ∀ f, p1InnerF f cs = none := by
  intro f
  cases f with
  | zero => rfl
  | succ f =>
    simp only [p1InnerF, splitOnSub_none_of_no h]

theorem p1At_none_of_no {cs : List Char} (h : hasSubst kLit cs = false) :
    p1At cs = none := by
  rw [p1At]
  split
  next r heq =>
    have hsfx : r <:+ cs := by
      have h1 : r <:+ '{' :: r := List.suffix_cons _ _
      have h2 : ('{' :: r) <:+ cs := heq ▸ List.dropWhile_suffix _
      exact h1.trans h2
    rw [p1InnerF_none_of_no (hasSubst_suffix_false h hsfx)]
    rfl
  next => rfl

theorem p1ScanF_nil_of_no :
    ∀ (f : Nat) {cs : List Char}, hasSubst kLit cs = false → p1ScanF f cs = [] := by
  intro f
  induction f with
  | zero => intro cs h; rfl
  | succ f ih =>
    intro cs h
    cases cs with
    | nil => rfl
    | cons c cs' =>
      simp only [hasSubst, Bool.or_eq_false_iff] at h
      simp only [p1ScanF]
      have hdrop : hasSubst kLit ((c :: cs').drop 7) = false := by
        refine hasSubst_suffix_false ?_ (List.drop_suffix _ _)
        simp [hasSubst, h.1, h.2]
      rw [p1At_none_of_no hdrop]
      split
      · exact ih h.2
      · exact ih h.2

theorem p2At_none_of_no {cs : List Char} (h : hasSubst kLit cs = false) :
    p2At cs = none := by
  cases cs with
  | nil => rfl
  | cons c r =>
    simp only [p2At]
    by_cases hc : c = '{'
    · rw [if_pos hc, if_neg]
      intro hpre
      have hr : r <:+ (c :: r) := List.suffix_cons _ _
      have hsfx : dropWS r <:+ (c :: r) := (List.dropWhile_suffix _).trans hr
      have := isPrefixOf_hasSubst hpre
      rw [hasSubst_suffix_false h hsfx] at this
      cases this
    · rw [if_neg hc]

theorem p2ScanF_nil_of_no :
    ∀ (f : Nat) {cs : List Char}, hasSubst kLit cs = false → p2ScanF f cs = [] := by
  intro f
  induction f with
  | zero => intro cs h; rfl
  | succ f ih =>
    intro cs h
    cases cs with
    | nil => rfl
    | cons c cs' =>
      have h2 : hasSubst kLit cs' = false := by
        simp only [hasSubst, Bool.or_eq_false_iff] at h
        exact h.2
      simp only [p2ScanF]
      rw [p2At_none_of_no h]
      exact ih h2

theorem p3At_none_of_no {cs : List Char} (h : hasSubst kLit cs = false) :
    p3At cs = none := by
  rw [p3At]
  rw [if_neg]
  intro hpre
  cases cs with
  | nil => simp [List.isPrefixOf] at hpre
  | cons c cs' =>
    simp only [List.isPrefixOf, Bool.and_eq_true] at hpre
    have := isPrefixOf_hasSubst hpre.2
    have hsfx : cs' <:+ c :: cs' := List.suffix_cons _ _
    rw [hasSubst_suffix_false h hsfx] at this
    cases this

theorem p3ScanF_nil_of_no :
    ∀ (f : Nat) {cs : List Char}, hasSubst kLit cs = false → p3ScanF f cs = [] := by
  intro f
  induction f with
  | zero => intro cs h; rfl
  | succ f ih =>
    intro cs h
    cases cs with
    | nil => rfl
    | cons c cs' =>
      have h2 : hasSubst kLit cs' = false := by
        simp only [hasSubst, Bool.or_eq_false_iff] at h
        exact h.2
      simp only [p3ScanF]
      rw [p3At_none_of_no h]
      exact ih h2
/-- C9: both extractors are total fail-soft functions.  In this
embedding both are total Lean functions by construction (the Python
bodies have no `raise` path: the only fallible call, `json.loads`, is
wrapped in `try/except`), so the substantive content is: for every input
containing no `\boxed{` marker the answer extractor returns `None`, and
for every input containing no `"knowledge":` marker (which every
alternative of every knowledge pattern requires) the knowledge extractor
returns the empty string. -/
theorem claim_c9_extractors_fail_soft :
    (∀ t : String, hasSubst boxedLit t.data = false →
      extract_last_boxed_answer t = none)
    ∧ (∀ t : String, hasSubst kLit t.data = false →
        extract_last_knowledge_object t = PyJson.str []) := by
  constructor
  · intro t h
    rw [extract_last_boxed_answer, extractBoxedCore, boxedFindAll,
      boxedFindAllF_nil_of_no_marker _ h]
    rfl
  · intro t h
    rw [extract_last_knowledge_object, extractKnowledgeCore, p1Scan,
      p1ScanF_nil_of_no _ h, p2Scan, p2ScanF_nil_of_no _ h, p3Scan,
      p3ScanF_nil_of_no _ h]
    rfl

/-- Witness for C9 on concrete marker-free inputs. -/
theorem claim_c9_witness :
    extract_last_boxed_answer "no answer here" = none ∧
    extract_last_knowledge_object "no markers here" = PyJson.str [] :=
  ⟨claim_c9_extractors_fail_soft.1 _ (by decide),
   claim_c9_extractors_fail_soft.2 _ (by decide)⟩
/-- C3 (code bug): result records are NOT immune to mutation after
append when the iteration count exceeds 1.  The loop iterates the same
sample dicts in every iteration and appends references, so iteration 2's
in-place assignment of `response`/`prediction` rewrites the record that
iteration 1 already appended to the in-memory accumulator.  On a
1-sample dataset with `test_time = 2` and responses `\boxed{A}` then
`\boxed{B}`: the durable file holds the two distinct per-iteration
records (snapshots are serialized before the next mutation), but the
in-memory accumulator that the final aggregation reads holds the
iteration-2 record twice — aggregation does not see (sample 0,
iteration 0)'s own prediction `A`. -/
theorem claim_c3_records_mutated_after_append :
    ((runTask1Loop [⟨"q".data, "f".data, "s".data, "A".data, none, none⟩] 2 []
        (fun f => if f = 0 then "\\boxed\x7bA\x7d".data else "\\boxed\x7bB\x7d".data)).file.map
      (fun r => r.prediction)) = [some (some ['A']), some (some ['B'])] ∧
    ((derefResults (runTask1Loop [⟨"q".data, "f".data, "s".data, "A".data, none, none⟩] 2 []
        (fun f => if f = 0 then "\\boxed\x7bA\x7d".data else "\\boxed\x7bB\x7d".data))).map
      (fun r => r.prediction)) = [some (some ['B']), some (some ['B'])] := by
  exact ⟨by decide, by decide⟩

/-- C6 (code bug): stage A does catch the per-sample exception, appends
nothing for the failed sample and continues — but the failed sample is
NOT retried on the next resume.  Resume skips by record count, so after
a run in which sample 0 failed and sample 1 succeeded (one record on
disk), the resumed run skips sample 0 (index 0 < 1 record) and
re-processes sample 1: the `attempted` instrumentation of the resumed
run is `[1]`, and the final knowledge file holds two records for sample
1 and none for sample 0. -/
theorem claim_c6_failed_sample_not_retried :
    ((generate_knowledge_for_task3
        [⟨"g0".data, "m0".data, "q0".data, "A".data, none, none, none⟩,
         ⟨"g1".data, "m1".data, "q1".data, "B".data, none, none, none⟩] []
        (fun i => if i = 0 then .error () else .ok "r1".data)).attempted = [0, 1] ∧
      (generate_knowledge_for_task3
        [⟨"g0".data, "m0".data, "q0".data, "A".data, none, none, none⟩,
         ⟨"g1".data, "m1".data, "q1".data, "B".data, none, none, none⟩] []
        (fun i => if i = 0 then .error () else .ok "r1".data)).file.map (fun r => r.question) =
        ["q1".data]) ∧
    ((generate_knowledge_for_task3
        [⟨"g0".data, "m0".data, "q0".data, "A".data, none, none, none⟩,
         ⟨"g1".data, "m1".data, "q1".data, "B".data, none, none, none⟩]
        (generate_knowledge_for_task3
          [⟨"g0".data, "m0".data, "q0".data, "A".data, none, none, none⟩,
           ⟨"g1".data, "m1".data, "q1".data, "B".data, none, none, none⟩] []
          (fun i => if i = 0 then .error () else .ok "r1".data)).file
        (fun _ => .ok "r2".data)).attempted = [1] ∧
      (generate_knowledge_for_task3
        [⟨"g0".data, "m0".data, "q0".data, "A".data, none, none, none⟩,
         ⟨"g1".data, "m1".data, "q1".data, "B".data, none, none, none⟩]
        (generate_knowledge_for_task3
          [⟨"g0".data, "m0".data, "q0".data, "A".data, none, none, none⟩,
           ⟨"g1".data, "m1".data, "q1".data, "B".data, none, none, none⟩] []
          (fun i => if i = 0 then .error () else .ok "r1".data)).file
        (fun _ => .ok "r2".data)).file.map (fun r => r.question) =
        ["q1".data, "q1".data]) := by
  exact ⟨⟨by decide, by rfl⟩, ⟨by decide, by rfl⟩⟩
theorem calculate_overall_accuracy_ok (l : List KSample) :
    ∃ q, calculate_overall_accuracy l = .ok q := by
  rw [calculate_overall_accuracy, calculate_accuracy]
  rw [if_neg (by simp)]
  exact ⟨_, rfl⟩

theorem run_evaluation_student_ok (d : List KSample) (T : Nat) (p : List KSample)
    (o : Nat → List Char) : ∃ q, (run_evaluation_student d T p o).2 = .ok q := by
  simp only [run_evaluation_student]
  exact calculate_overall_accuracy_ok _

theorem rosterMapM_ok (g : String → Except String ℚ) (h : ∀ n, ∃ q, g n = .ok q) :
    ∀ names : List String, ∃ prs : List (String × ℚ),
      names.mapM (fun name => do
        let acc ← g name
        pure (name, acc)) = .ok prs ∧ prs.map Prod.fst = names := by
  intro names
  induction names with
  | nil => exact ⟨[], by simp only [List.mapM_nil]; rfl, rfl⟩
  | cons n rest ih =>
    obtain ⟨q, hq⟩ := h n
    obtain ⟨prs, hprs, hfst⟩ := ih
    refine ⟨(n, q) :: prs, ?_, by simp [hfst]⟩
    rw [List.mapM_cons]
    simp only [Bind.bind, Except.bind, Pure.pure, Except.pure] at hprs ⊢
    rw [hq, hprs]

/-- C7: the task3 pipeline's final score is a mapping whose
`student_scores` breakdown contains exactly one scalar overall accuracy
per student identifier of the fixed ordered roster (no other keys), and
whose top-level `overall` equals the arithmetic mean of those
per-student overall accuracies.  Holds for every dataset, resume state
and model behaviour. -/
theorem claim_c7_task3_final_score (data teacherPrior : List KSample)
    (gen : Nat → Except Unit (List Char)) (studentPrior : String → List KSample)
    (studentOracle : String → Nat → List Char) (testTime : Nat) :
    ∃ s, run_evaluation_task3 data teacherPrior gen studentPrior studentOracle testTime =
        .ok s ∧
      s.student_scores.map Prod.fst = studentRoster ∧
      s.overall = (s.student_scores.map Prod.snd).sum /
        ((s.student_scores.map Prod.snd).length : ℚ) ∧
      s.student_scores.length = 5 := by
  obtain ⟨prs, hprs, hfst⟩ := rosterMapM_ok
    (fun n => (run_evaluation_student
      (derefKResults (generate_knowledge_for_task3 data teacherPrior gen)) testTime
      (studentPrior n) (studentOracle n)).2)
    (fun n => run_evaluation_student_ok _ _ _ _) studentRoster
  refine ⟨⟨(prs.map Prod.snd).sum / ((prs.map Prod.snd).length : ℚ), prs⟩, ?_, hfst, rfl, ?_⟩
  · rw [run_evaluation_task3]
    simp only [Bind.bind, Except.bind, Pure.pure, Except.pure] at hprs ⊢
    rw [hprs]
  · have := congrArg List.length hfst
    simpa using this
theorem task1Step_flat_of_lt (o : Nat → List Char) (n T b : Nat) (hb : b < n)
    (st : LoopState) : task1Step o n T st b = task1StepFlat o n st (T * n + b) := by
  have hn : 0 < n := Nat.pos_of_ne_zero (by intro h; rw [h] at hb; exact Nat.not_lt_zero _ hb)
  rw [task1StepFlat]
  have hdiv : (T * n + b) / n = T := by
    rw [Nat.add_comm, Nat.mul_comm, Nat.add_mul_div_left _ _ hn, Nat.div_eq_of_lt hb,
      Nat.zero_add]
  have hmod : (T * n + b) % n = b := by
    rw [Nat.add_comm, Nat.mul_comm, Nat.add_mul_mod_self_left, Nat.mod_eq_of_lt hb]
  rw [hdiv, hmod]

theorem foldl_inner_flat (o : Nat → List Char) (n T : Nat) :
    ∀ (l : List Nat), (∀ b ∈ l, b < n) → ∀ st : LoopState,
      l.foldl (task1Step o n T) st =
        (l.map (fun b => T * n + b)).foldl (task1StepFlat o n) st := by
  intro l
  induction l with
  | nil => intro _ st; rfl
  | cons b l ih =>
    intro hl st
    simp only [List.foldl_cons, List.map_cons]
    rw [task1Step_flat_of_lt o n T b (hl b (List.mem_cons_self _ _))]
    exact ih (fun x hx => hl x (List.mem_cons_of_mem _ hx)) _

theorem foldl_nested_flat (o : Nat → List Char) (n : Nat) :
    ∀ (T : Nat) (init : LoopState),
      (List.range T).foldl
        (fun st i => (List.range n).foldl (task1Step o n i) st) init =
      (List.range (T * n)).foldl (task1StepFlat o n) init := by
  intro T
  induction T with
  | zero => intro init; simp
  | succ T ih =>
    intro init
    rw [List.range_succ, List.foldl_append, ih]
    simp only [List.foldl_cons, List.foldl_nil]
    have hsplit : List.range ((T + 1) * n) =
        List.range (T * n) ++ (List.range n).map (fun b => T * n + b) := by
      rw [Nat.succ_mul, List.range_add]
    rw [hsplit, List.foldl_append]
    exact foldl_inner_flat o n T (List.range n)
      (fun b hb => List.mem_range.mp hb) _

theorem runTask1Loop_flat (data : List PSample) (T : Nat) (prior : List PSample)
    (o : Nat → List Char) :
    runTask1Loop data T prior o =
      (List.range (T * data.length)).foldl (task1StepFlat o data.length)
        ⟨data, prior.map RRef.loaded, prior, 0⟩ := by
  simp only [runTask1Loop]
  exact foldl_nested_flat o data.length T _
theorem getD_set_ne {α : Type} (l : List α) (i s : Nat) (a d : α) (h : s ≠ i) :
    (l.set i a).getD s d = l.getD s d := by
  rw [List.getD_eq_getElem?_getD, List.getD_eq_getElem?_getD, List.getElem?_set_ne]
  omega

theorem getD_set_self {α : Type} (l : List α) (i : Nat) (a d : α) (h : i < l.length) :
    (l.set i a).getD i d = a := by
  rw [List.getD_eq_getElem?_getD, List.getElem?_set_self]
  · rfl
  · exact h

theorem stripRP_set_eq {p p' : PSample} (h : stripRP p = stripRP p')
    (r : List Char) (q : Option (List Char)) :
    ({ p with response := some r, prediction := some q } : PSample) =
    { p' with response := some r, prediction := some q } := by
  cases p
  cases p'
  simp only [stripRP, PSample.mk.injEq] at h ⊢
  exact ⟨h.1, h.2.1, h.2.2.1, h.2.2.2.1, trivial, trivial⟩

theorem task1FlatState_spec (data : List PSample) (o : Nat → List Char)
    (prior : List PSample) :
    ∀ k : Nat,
      (task1FlatState data o prior k).store.length = data.length ∧
      (∀ s, stripRP ((task1FlatState data o prior k).store.getD s defaultPSample) =
        stripRP (data.getD s defaultPSample)) ∧
      (task1FlatState data o prior k).results.length = max prior.length k ∧
      (task1FlatState data o prior k).file =
        prior ++ (List.range' prior.length (k - prior.length)).map (task1RecordAt data o) ∧
      (task1FlatState data o prior k).genCalls = k - prior.length := by
  intro k
  induction k with
  | zero =>
    refine ⟨rfl, fun s => rfl, ?_, ?_, ?_⟩
    · show (prior.map RRef.loaded).length = max prior.length 0
      simp
    · show prior = prior ++ (List.range' prior.length (0 - prior.length)).map _
      simp [Nat.zero_sub]
    · show 0 = 0 - prior.length
      simp [Nat.zero_sub]
  | succ k ih =>
    obtain ⟨ihlen, ihstrip, ihres, ihfile, ihgen⟩ := ih
    have hstep : task1FlatState data o prior (k + 1) =
        task1StepFlat o data.length (task1FlatState data o prior k) k := by
      rw [task1FlatState, task1FlatState, List.range_succ, List.foldl_append,
        List.foldl_cons, List.foldl_nil]
    have hidx : k % data.length + k / data.length * data.length = k := Nat.mod_add_div' k _
    rw [hstep, task1StepFlat, task1Step]
    simp only [hidx, ihres]
    by_cases hk : k < max prior.length k
    · -- skipped: k < prior.length
      have hklt : k < prior.length := by omega
      rw [if_pos hk]
      refine ⟨ihlen, ihstrip, ?_, ?_, ?_⟩
      · rw [ihres]; omega
      · rw [ihfile]
        have h1 : k - prior.length = 0 := by omega
        have h2 : k + 1 - prior.length = 0 := by omega
        rw [h1, h2]
      · rw [ihgen]; omega
    · -- processed: prior.length ≤ k
      have hge : prior.length ≤ k := by omega
      rw [if_neg hk]
      refine ⟨?_, ?_, ?_, ?_, ?_⟩
      · simpa [List.length_set] using ihlen
      · intro s
        by_cases hs : s = k % data.length
        · subst hs
          by_cases hlt : k % data.length < (task1FlatState data o prior k).store.length
          · rw [getD_set_self _ _ _ _ hlt]
            rw [show stripRP { (task1FlatState data o prior k).store.getD
                (k % data.length) defaultPSample with
                  response := some (o k),
                  prediction := some (extractBoxedCore (o k)) } =
              stripRP ((task1FlatState data o prior k).store.getD
                (k % data.length) defaultPSample) from rfl]
            exact ihstrip _
          · rw [List.set_eq_of_length_le (by omega)]
            exact ihstrip _
        · rw [getD_set_ne _ _ _ _ _ hs]
          exact ihstrip _
      · simp only [List.length_append, List.length_cons, List.length_nil, ihres]
        omega
      · rw [ihfile]
        have hsplit : List.range' prior.length (k + 1 - prior.length) =
            List.range' prior.length (k - prior.length) ++ [k] := by
          have h1 : k + 1 - prior.length = (k - prior.length) + 1 := by omega
          rw [h1, List.range'_concat]
          have h2 : prior.length + 1 * (k - prior.length) = k := by omega
          rw [h2]
        have hrec : task1RecordAt data o k =
            { (task1FlatState data o prior k).store.getD (k % data.length) defaultPSample with
              response := some (o k), prediction := some (extractBoxedCore (o k)) } := by
          simp only [task1RecordAt]
          exact (stripRP_set_eq (ihstrip (k % data.length)) (o k)
            (extractBoxedCore (o k))).symm
        rw [hsplit, List.map_append]
        simp only [List.map_cons, List.map_nil, hrec, List.append_assoc]
      · rw [ihgen]
        show k - prior.length + 1 = k + 1 - prior.length
        omega
theorem range'_append_simple (s m n : Nat) :
    List.range' s m ++ List.range' (s + m) n = List.range' s (m + n) := by
  have := List.range'_append s m n 1
  rw [Nat.one_mul, Nat.add_comm n m] at this
  exact this

theorem take_range' (s n k : Nat) :
    (List.range' s n).take k = List.range' s (min k n) := by
  induction n generalizing s k with
  | zero => simp
  | succ n ih =>
    cases k with
    | zero => simp
    | succ k =>
      rw [List.range'_succ, List.take_succ_cons, ih]
      have h : min (k + 1) (n + 1) = min k n + 1 := by omega
      rw [h, List.range'_succ]

/-- C1: resume correctness of the evaluation loop.  For every dataset,
iteration count `T` and prior record list read from the output stream
(of length `R`), (i) the run appends exactly the records of the flat
indices `R .. T·N − 1`, in increasing flat-index order, after the prior
content; (ii) the number of generations is `T·N − R`, in particular zero
when `R ≥ T·N` (the fully-resumed path goes straight to aggregation);
(iii) truncating a completed run's output to its first `k` records and
re-running yields exactly the uninterrupted run's output.  The model
backend is assumed to answer a flat index deterministically across runs,
which is the stable-ordering external contract the claim presupposes. -/
theorem claim_c1_resume_correctness (data : List PSample) (T : Nat)
    (prior : List PSample) (oracle : Nat → List Char) :
    (runTask1Loop data T prior oracle).file =
      prior ++ (List.range' prior.length (T * data.length - prior.length)).map
        (task1RecordAt data oracle) ∧
    (runTask1Loop data T prior oracle).genCalls = T * data.length - prior.length ∧
    ∀ k, (runTask1Loop data T ((runTask1Loop data T [] oracle).file.take k) oracle).file =
      (runTask1Loop data T [] oracle).file := by
  have hfile : ∀ pr : List PSample, (runTask1Loop data T pr oracle).file =
      pr ++ (List.range' pr.length (T * data.length - pr.length)).map
        (task1RecordAt data oracle) := by
    intro pr
    rw [runTask1Loop_flat]
    exact (task1FlatState_spec data oracle pr (T * data.length)).2.2.2.1
  refine ⟨hfile prior, ?_, ?_⟩
  · rw [runTask1Loop_flat]
    exact (task1FlatState_spec data oracle prior (T * data.length)).2.2.2.2
  · intro k
    have h0 := hfile []
    simp only [List.nil_append, List.length_nil, Nat.sub_zero] at h0
    rw [hfile (((runTask1Loop data T [] oracle).file).take k), h0]
    rw [← List.map_take, take_range']
    have hlen : ((List.range' 0 (min k (T * data.length))).map
        (task1RecordAt data oracle)).length = min k (T * data.length) := by
      simp
    rw [hlen, ← List.map_append]
    have happ := range'_append_simple 0 (min k (T * data.length))
      (T * data.length - min k (T * data.length))
    rw [Nat.zero_add] at happ
    rw [happ]
    congr 2
    omega
theorem letterOf_not_ws (i : Fin 4) : isWSChar (letterOf i) = false := by
  fin_cases i <;> rfl

theorem letterOf_isAD (i : Fin 4) : isAD (letterOf i) = true := by
  fin_cases i <;> rfl

theorem letterOf_ne_backslash (i : Fin 4) : letterOf i ≠ '\\' := by
  fin_cases i <;> decide

theorem letterOf_ne_lbrace (i : Fin 4) : letterOf i ≠ '{' := by
  fin_cases i <;> decide

theorem takeWhile_append_all {p : Char → Bool} :
    ∀ {l : List Char}, (∀ c ∈ l, p c = true) → ∀ r : List Char,
      (l ++ r).takeWhile p = l ++ r.takeWhile p := by
  intro l
  induction l with
  | nil => intro _ r; rfl
  | cons c cs ih =>
    intro h r
    rw [List.cons_append, List.takeWhile_cons_of_pos (h c (List.mem_cons_self _ _)),
      ih (fun x hx => h x (List.mem_cons_of_mem _ hx)) r, List.cons_append]

theorem dropWhile_append_all {p : Char → Bool} :
    ∀ {l : List Char}, (∀ c ∈ l, p c = true) → ∀ r : List Char,
      (l ++ r).dropWhile p = r.dropWhile p := by
  intro l
  induction l with
  | nil => intro _ r; rfl
  | cons c cs ih =>
    intro h r
    rw [List.cons_append, List.dropWhile_cons_of_pos (h c (List.mem_cons_self _ _)),
      ih (fun x hx => h x (List.mem_cons_of_mem _ hx)) r]

theorem scanDotEnd_append {s : List Char}
    (hs : ∀ c ∈ s, c ≠ '}' ∧ c ≠ '\n') :
    ∀ r : List Char, scanDotEnd (s ++ '}' :: r) = some (s, '}' :: r) := by
  induction s with
  | nil => intro r; rfl
  | cons c cs ih =>
    intro r
    have hc := hs c (List.mem_cons_self _ _)
    rw [List.cons_append]
    show scanDotEnd (c :: (cs ++ '}' :: r)) = _
    rw [scanDotEnd]
    rw [if_neg (by simpa using hc.1), if_neg (by simpa using hc.2)]
    rw [ih (fun x hx => hs x (List.mem_cons_of_mem _ hx)) r]
    rfl
theorem braceClose_head_ne (mid rest : List Char) (h : rest.head? ≠ some '}') :
    braceClose mid rest = (mid, rest) := by
  cases rest with
  | nil => rfl
  | cons c r =>
    have hc : c ≠ '}' := by
      intro h2
      rw [h2] at h
      exact h rfl
    unfold braceClose
    split
    · rename_i a r2 heq
      rw [List.cons_eq_cons] at heq
      exact absurd heq.1 hc
    · rename_i a r2 hna heq
      rw [List.cons_eq_cons] at heq
      exact absurd heq.1 hc
    · rfl

theorem tryDottedBranch_eq (c : Char) (hcws : isWSChar c = false) (hcb : c ≠ '{')
    (hAD : isAD c = true) (x : List Char) :
    tryDottedBranch (c :: '.' :: x) =
      match scanDotEnd x with
      | some (mid, _ :: after) =>
        some (⟨[], c :: '.' :: (braceClose mid after).1, []⟩, (braceClose mid after).2)
      | _ => none := by
  simp only [tryDottedBranch, dropWS]
  rw [List.dropWhile_cons_of_neg (by simp [hcws])]
  have hm : (match c :: '.' :: x with
      | '{' :: r => r
      | _ => c :: '.' :: x) = c :: '.' :: x := by
    split
    · rename_i r heq
      rw [List.cons_eq_cons] at heq
      exact absurd heq.1 hcb
    · rfl
  rw [hm]
  simp only [hAD, isWSChar, decide_True, Bool.true_and, Bool.true_or, if_true]
theorem tryTextBranch_none_of_head (c : Char) (x : List Char)
    (hws : isWSChar c = false) (hc : c ≠ '\\') :
    tryTextBranch (c :: x) = none := by
  simp only [tryTextBranch, dropWS]
  rw [List.dropWhile_cons_of_neg (by simp [hws])]
  have hbeq : ('\\' == c) = false := beq_eq_false_iff_ne.mpr (Ne.symm hc)
  have hpf : textLit.isPrefixOf (c :: x) = false := by
    simp [List.isPrefixOf, textLit, hbeq]
  rw [hpf]
  simp

theorem matchBoxedAt_bare (i : Fin 4) (rest : List Char) :
    matchBoxedAt (letterOf i :: '}' :: rest) = some (⟨[], [], [letterOf i]⟩, rest) := by
  fin_cases i <;> rfl

theorem tryTextBranch_wrapped (body rest : List Char)
    (hb : ∀ c ∈ body, c ≠ '}' ∧ c ≠ '\\') :
    tryTextBranch (textLit ++ (body ++ '}' :: '}' :: rest)) = some (⟨body, [], []⟩, rest) := by
  have hshape : textLit ++ (body ++ '}' :: '}' :: rest) =
      '\\' :: ('t' :: 'e' :: 'x' :: 't' :: '{' :: (body ++ '}' :: '}' :: rest)) := rfl
  rw [hshape]
  simp only [tryTextBranch, dropWS]
  rw [List.dropWhile_cons_of_neg (by decide)]
  rw [show textLit.isPrefixOf
      ('\\' :: 't' :: 'e' :: 'x' :: 't' :: '{' :: (body ++ '}' :: '}' :: rest)) = true from by
    simp [textLit, List.isPrefixOf]]
  rw [if_pos rfl]
  simp only [List.drop_succ_cons, List.drop_zero]
  rw [takeWhile_append_all (fun c hc => by simp [(hb c hc).1]) ('}' :: '}' :: rest)]
  rw [dropWhile_append_all (fun c hc => by simp [(hb c hc).1]) ('}' :: '}' :: rest)]
  rw [List.takeWhile_cons_of_neg (by simp)]
  rw [List.dropWhile_cons_of_neg (by simp)]
  simp

theorem matchBoxedAt_wrapped (body rest : List Char)
    (hb : ∀ c ∈ body, c ≠ '}' ∧ c ≠ '\\') :
    matchBoxedAt (textLit ++ (body ++ '}' :: '}' :: rest)) = some (⟨body, [], []⟩, rest) := by
  unfold matchBoxedAt
  rw [tryTextBranch_wrapped body rest hb]

theorem matchBoxedAt_dotted (i : Fin 4) (s rest : List Char)
    (hs : ∀ c ∈ s, c ≠ '}' ∧ c ≠ '\n')
    (hr : rest.head? ≠ some '}') :
    matchBoxedAt (letterOf i :: '.' :: (s ++ '}' :: rest)) =
      some (⟨[], letterOf i :: '.' :: s, []⟩, rest) := by
  have ht : tryTextBranch (letterOf i :: '.' :: (s ++ '}' :: rest)) = none :=
    tryTextBranch_none_of_head _ _ (letterOf_not_ws i) (letterOf_ne_backslash i)
  have hd := tryDottedBranch_eq (letterOf i) (letterOf_not_ws i) (letterOf_ne_lbrace i)
    (letterOf_isAD i) (s ++ '}' :: rest)
  rw [scanDotEnd_append hs rest] at hd
  have hd2 : tryDottedBranch (letterOf i :: '.' :: (s ++ '}' :: rest)) =
      some (⟨[], letterOf i :: '.' :: (braceClose s rest).1, []⟩, (braceClose s rest).2) := hd
  rw [braceClose_head_ne s rest hr] at hd2
  unfold matchBoxedAt
  rw [ht, hd2]
theorem boxedFindAll_span (sp : BoxedSpan) (t : List Char) (hwf : spanWF sp)
    (hhd : ∀ i s, sp = BoxedSpan.dotted i s → t.head? ≠ some '}') :
    boxedFindAll (renderSpan sp ++ t) = spanGroups sp :: boxedFindAll t := by
  cases sp with
  | bare i =>
    have hshape : renderSpan (.bare i) ++ t =
        '\\' :: ('b' :: 'o' :: 'x' :: 'e' :: 'd' :: '{' :: (letterOf i :: '}' :: t)) := by
      simp [renderSpan, boxedLit]
    rw [hshape, boxedFindAll_cons]
    rw [show boxedLit.isPrefixOf
        ('\\' :: 'b' :: 'o' :: 'x' :: 'e' :: 'd' :: '{' :: (letterOf i :: '}' :: t)) = true from by
      simp [boxedLit, List.isPrefixOf]]
    rw [if_pos rfl]
    simp only [List.drop_succ_cons, List.drop_zero]
    rw [matchBoxedAt_bare]
    rfl
  | wrapped body =>
    have hb : ∀ c ∈ body, c ≠ '}' ∧ c ≠ '\\' := by
      intro c hcmem
      have h2 := (List.all_eq_true.mp hwf) c hcmem
      simpa using h2
    have hshape : renderSpan (.wrapped body) ++ t =
        '\\' :: ('b' :: 'o' :: 'x' :: 'e' :: 'd' :: '{' :: (textLit ++ (body ++ '}' :: '}' :: t))) := by
      simp [renderSpan, boxedLit, textLit]
    rw [hshape, boxedFindAll_cons]
    rw [show boxedLit.isPrefixOf
        ('\\' :: 'b' :: 'o' :: 'x' :: 'e' :: 'd' :: '{' :: (textLit ++ (body ++ '}' :: '}' :: t))) = true from by
      simp [boxedLit, List.isPrefixOf]]
    rw [if_pos rfl]
    simp only [List.drop_succ_cons, List.drop_zero]
    rw [matchBoxedAt_wrapped body t hb]
    rfl
  | dotted i s =>
    have hs : ∀ c ∈ s, c ≠ '}' ∧ c ≠ '\n' := by
      intro c hcmem
      have h2 := (List.all_eq_true.mp hwf) c hcmem
      simp at h2
      exact ⟨h2.1.1, h2.1.2⟩
    have hshape : renderSpan (.dotted i s) ++ t =
        '\\' :: ('b' :: 'o' :: 'x' :: 'e' :: 'd' :: '{' :: (letterOf i :: '.' :: (s ++ '}' :: t))) := by
      simp [renderSpan, boxedLit]
    rw [hshape, boxedFindAll_cons]
    rw [show boxedLit.isPrefixOf
        ('\\' :: 'b' :: 'o' :: 'x' :: 'e' :: 'd' :: '{' :: (letterOf i :: '.' :: (s ++ '}' :: t))) = true from by
      simp [boxedLit, List.isPrefixOf]]
    rw [if_pos rfl]
    simp only [List.drop_succ_cons, List.drop_zero]
    rw [matchBoxedAt_dotted i s t hs (hhd i s rfl)]
    rfl
theorem renderSpan_head (sp : BoxedSpan) (r : List Char) :
    (renderSpan sp ++ r).head? = some '\\' := by
  cases sp <;> rfl

theorem boxedFindAll_renderSpans (ss : List BoxedSpan) (t : List Char)
    (hwf : ∀ sp ∈ ss, spanWF sp) (hhd : t.head? ≠ some '}') :
    boxedFindAll (renderSpans ss ++ t) = ss.map spanGroups ++ boxedFindAll t := by
  induction ss with
  | nil => simp [renderSpans]
  | cons sp ss ih =>
    have hren : renderSpans (sp :: ss) ++ t = renderSpan sp ++ (renderSpans ss ++ t) := by
      simp [renderSpans]
    have htail : (renderSpans ss ++ t).head? ≠ some '}' := by
      cases ss with
      | nil => simpa [renderSpans] using hhd
      | cons sp2 ss2 =>
        have : renderSpans (sp2 :: ss2) ++ t = renderSpan sp2 ++ (renderSpans ss2 ++ t) := by
          simp [renderSpans]
        rw [this, renderSpan_head]
        simp
    rw [hren, boxedFindAll_span sp _ (hwf sp (List.mem_cons_self _ _))
      (fun i s _ => htail)]
    rw [ih (fun q hq => hwf q (List.mem_cons_of_mem _ hq))]
    simp
theorem extractedOptions_append (a b : List BGroups) :
    extractedOptions (a ++ b) = extractedOptions a ++ extractedOptions b :=
  List.filterMap_append a b _

/-- Claim C4: the answer extractor's result is determined only by the last
boxed occurrence.  Part 1: a text with no `\boxed{` marker (hence zero
boxed spans) yields `none`.  Part 2: prepending arbitrary well-formed boxed
spans before a text whose extraction succeeds (and which does not begin
with a stray `}` that a preceding span could capture) does not change the
extracted label. -/
theorem claim_c4_last_occurrence_only :
    (∀ s : String, hasSubst boxedLit s.data = false → extract_last_boxed_answer s = none) ∧
    (∀ (ss : List BoxedSpan) (t l : String),
      (∀ sp ∈ ss, spanWF sp) → t.data.head? ≠ some '}' →
      extract_last_boxed_answer t = some l →
      extract_last_boxed_answer ⟨renderSpans ss ++ t.data⟩ = some l) := by
  constructor
  · intro s h
    simp only [extract_last_boxed_answer, extractBoxedCore, boxedFindAll,
      boxedFindAllF_nil_of_no_marker _ h]
    rfl
  · intro ss t l hwf hhd hl
    simp only [extract_last_boxed_answer] at hl ⊢
    rcases Option.map_eq_some'.mp hl with ⟨l', hcore, hmk⟩
    have hbig : extractBoxedCore (renderSpans ss ++ t.data) = some l' := by
      simp only [extractBoxedCore] at hcore ⊢
      rw [boxedFindAll_renderSpans ss t.data hwf hhd]
      rw [extractedOptions_append]
      rw [List.getLast?_append]
      cases hgl : (extractedOptions (boxedFindAll t.data)).getLast? with
      | none =>
        rw [hgl] at hcore
        simp at hcore
      | some last =>
        rw [hgl] at hcore
        exact hcore
    rw [hbig]
    simp [hmk]
theorem claim_c4_witness :
    extract_last_boxed_answer "no boxed span here" = none ∧
    extract_last_boxed_answer
      ⟨renderSpans [BoxedSpan.bare 0, BoxedSpan.wrapped ['h', 'i']] ++ ("x \\boxed\x7bB\x7d y".data)⟩
      = some "B" :=
  ⟨claim_c4_last_occurrence_only.1 "no boxed span here" (by decide),
   claim_c4_last_occurrence_only.2 [BoxedSpan.bare 0, BoxedSpan.wrapped ['h', 'i']]
     "x \\boxed\x7bB\x7d y" "B"
     (by intro sp hsp; fin_cases hsp <;> simp [spanWF])
     (by decide) (by decide)⟩

theorem pyStrip_cons_cons (c d : Char) (r : List Char)
    (hc : isWSChar c = false) (hd : isWSChar d = false) :
    pyStrip (c :: d :: r) = c :: d :: (r.reverse.dropWhile isWSChar).reverse := by
  simp only [pyStrip]
  rw [List.dropWhile_cons_of_neg (by simp [hc])]
  have hrev : (c :: d :: r).reverse = r.reverse ++ [d, c] := by simp
  rw [hrev, List.dropWhile_append]
  by_cases he : (r.reverse.dropWhile isWSChar).isEmpty
  · rw [if_pos he]
    rw [List.dropWhile_cons_of_neg (by simp [hd])]
    rw [List.isEmpty_iff] at he
    rw [he]
    simp
  · rw [if_neg he]
    simp
theorem letterOf_ne_rbrace (i : Fin 4) : letterOf i ≠ '}' := by
  fin_cases i <;> decide

/-- Claim C8 (amended): for a last boxed span carrying `\text{}`-wrapped
content of the form `L. ...` whose interior contains no closing brace and
no backslash (newlines and opening braces are fine), preceded by arbitrary
well-formed boxed spans and followed by arbitrary trailing text free of
further `\boxed{` markers (a trailing stray `}` is fine), the extractor
returns the leading letter; and the claim's concrete scenario holds.
Contrary to the claim's wording, content with nested closed braces is NOT
tolerated: see the counterexample. -/
theorem claim_c8_wrapped_amended :
    (∀ (ss : List BoxedSpan) (i : Fin 4) (s t : List Char),
      (∀ sp ∈ ss, spanWF sp) →
      (∀ c ∈ s, c ≠ '}' ∧ c ≠ '\\') →
      hasSubst boxedLit t = false →
      extract_last_boxed_answer
        ⟨renderSpans ss ++ (renderSpan (.wrapped (letterOf i :: '.' :: s)) ++ t)⟩
        = some ⟨[letterOf i]⟩) ∧
    extract_last_boxed_answer "blah \\boxed\x7b\\text\x7bB. some text\x7d\x7d blah" = some "B" := by
  constructor
  · intro ss i s t hwf hsOK hnm
    have hwfB : spanWF (BoxedSpan.wrapped (letterOf i :: '.' :: s)) := by
      simp only [spanWF, List.all_eq_true]
      intro c hc
      rcases List.mem_cons.mp hc with rfl | hc
      · simp [letterOf_ne_rbrace i, letterOf_ne_backslash i]
      rcases List.mem_cons.mp hc with rfl | hc
      · decide
      · simp [(hsOK c hc).1, (hsOK c hc).2]
    have h1 : boxedFindAll (renderSpans ss ++ (renderSpan (.wrapped (letterOf i :: '.' :: s)) ++ t))
        = ss.map spanGroups ++ boxedFindAll (renderSpan (.wrapped (letterOf i :: '.' :: s)) ++ t) :=
      boxedFindAll_renderSpans ss _ hwf (by rw [renderSpan_head]; simp)
    have h2 : boxedFindAll (renderSpan (.wrapped (letterOf i :: '.' :: s)) ++ t)
        = spanGroups (.wrapped (letterOf i :: '.' :: s)) :: boxedFindAll t :=
      boxedFindAll_span _ t hwfB (fun _ _ h => BoxedSpan.noConfusion h)
    have h3 : boxedFindAll t = [] := boxedFindAllF_nil_of_no_marker _ hnm
    have hps : pyStrip (letterOf i :: '.' :: s)
        = letterOf i :: '.' :: (s.reverse.dropWhile isWSChar).reverse :=
      pyStrip_cons_cons _ _ _ (letterOf_not_ws i) (by decide)
    simp only [extract_last_boxed_answer, extractBoxedCore]
    rw [h1, h2, h3]
    rw [extractedOptions_append]
    rw [show extractedOptions [spanGroups (.wrapped (letterOf i :: '.' :: s))]
        = [letterOf i :: '.' :: (s.reverse.dropWhile isWSChar).reverse] from by
      simp [extractedOptions, selectContent, spanGroups, hps]]
    rw [List.getLast?_append]
    simp [labelOf, letterOf_isAD i]
  · decide
/-- Claim C8, counterexample to the nested-brace clause: wrapped content
containing a nested `{b}` makes the extractor return `none`, not the
leading letter `B` the claim promises (`[^}]*` stops at the first `}`,
so the `\text{` alternative cannot span a nested closing brace, and the
remaining alternatives fail too). -/
theorem claim_c8_counterexample :
    extract_last_boxed_answer "\\boxed\x7b\\text\x7bB. a \x7bb\x7d c\x7d\x7d" = none := by decide

theorem claim_c8_witness :
    extract_last_boxed_answer
      ⟨renderSpans [BoxedSpan.bare 0] ++
        (renderSpan (.wrapped (letterOf 1 :: '.' :: " line1\nline2".data)) ++ "\x7d stray".data)⟩
      = some ⟨[letterOf 1]⟩ :=
  claim_c8_wrapped_amended.1 [BoxedSpan.bare 0] 1 (" line1\nline2".data) ("\x7d stray".data)
    (by intro sp hsp; fin_cases hsp <;> simp [spanWF])
    (by decide) (by decide)
